import Mathlib

/-!
Verification development for `cbr`, a bulk file-renaming utility written in C.

The embedding below follows the program's `main.c` (the variant with the
`--force`, `--silent` and `--trash` options).  Filenames are modelled as Lean
strings, the filesystem as the finite set of currently existing paths, and the
run of the program as a pure function from its inputs (command-line arguments,
directory listing, the editor's rewrite of the name list, the initial
filesystem, the random temp-name generator and the exit behaviour of the
external `gio` processes) to an outcome, the list of executed filesystem
operations, and the final filesystem.  The scratch file under `/tmp` used to
talk to the editor is outside the modelled filesystem, which contains only the
names the batch operates on.
-/

namespace Cbr

/-- Filenames, modelled as Lean strings. C compares them with `strcmp`, whose
byte order on UTF-8 agrees with the character order used here. -/
abbrev FName := String

/-- Embeds the C test `name[0] == delete_char` (the delete-marker test):
true when the first character of `s` equals `dc`.  An empty C string has
first byte `NUL`, which never equals a marker character, matching `head? = none`. -/
def firstCharIs (dc : Char) (s : FName) : Bool :=
  decide (s.data.head? = some dc)

/-- Error taxonomy of the program, one constructor per distinct failure message
in `main.c` (spec section 7 names). -/
inductive CbrError where
  | invalidInput (n : FName)
  | missingFile (n : FName)
  | mismatchedCount (newCount oldCount : Nat)
  | nameCollision (n : FName)
  | duplicateTarget (n : FName)
  | renameError (oldName newName : FName)
  | removalError (n : FName)
  | trashError
  | gioMissing
deriving DecidableEq, Repr

/-- Filesystem mutations the program can execute: `rename(2)`, `remove(3)`, and
one `gio trash` subprocess invocation with its batch of path arguments. -/
inductive Op where
  | renameOp (oldName newName : FName)
  | removeOp (n : FName)
  | trashBatch (batch : List FName)
deriving DecidableEq, Repr

/-- Embeds the `Arguments` struct (editor selection is handled at the external
boundary and not carried here). -/
structure Config where
  force : Bool
  silent : Bool
  trash : Bool
  delChar : Char
deriving DecidableEq, Repr

/-- Embeds the C struct `RenamePath` used for the two-pass cyclic renames. -/
structure RenamePath where
  initial_name : FName
  temp_name : FName
  new_name : FName
deriving DecidableEq, Repr

/-- State of the execution engine: the live filesystem, the queued trash list,
the pending temp-rename triples, and the trace of executed operations. -/
structure ExecState where
  fs : Finset FName
  trashQ : List FName
  pending : List RenamePath
  ops : List Op
deriving DecidableEq

/-- Embeds the directory-ingestion loop (`readdir` loop in `main`): the entries
of `dirList` are the names of the regular files and symbolic links of the
working directory, in directory order; the first one whose leading character is
the delete marker aborts with `invalidInput`. -/
def collectDirNames (dc : Char) : List FName → Except CbrError (List FName)
  | [] => .ok []
  | e :: rest =>
    if firstCharIs dc e then .error (.invalidInput e)
    else
      match collectDirNames dc rest with
      | .error er => .error er
      | .ok l => .ok (e :: l)

/-- Embeds input-list construction: explicit arguments are used as-is (the
`ARGP_KEY_ARG` case of `parse_opt` adds them unchecked); only with no
arguments is the directory enumerated and marker-checked. -/
def ingest (dc : Char) (args dirList : List FName) : Except CbrError (List FName) :=
  if args.isEmpty then collectDirNames dc dirList else .ok args

/-- Embeds the input existence check loop (`file_exists` over the whole input
list, aborting at the first missing file). -/
def checkFilesExist (fs : Finset FName) : List FName → Except CbrError Unit
  | [] => .ok ()
  | n :: rest => if n ∈ fs then checkFilesExist fs rest else .error (.missingFile n)

/-- Embeds `strcmp`'s strict order: lexicographic comparison of the character
sequences, a shorter string preceding its extensions.  On UTF-8 data the byte
order used by `strcmp` coincides with this character order. -/
def strLtB : List Char → List Char → Bool
  | [], [] => false
  | [], _ :: _ => true
  | _ :: _, [] => false
  | a :: as, b :: bs =>
    if a.toNat < b.toNat then true
    else if b.toNat < a.toNat then false
    else strLtB as bs

/-- Non-strict `strcmp` order on filenames. -/
def strLeB (a b : FName) : Bool :=
  !strLtB b.data a.data

/-- Embeds `qsort` with `str_cmp`: the sorted rearrangement of a list of names.
Any sorting algorithm over the same total order yields the same list of values. -/
def sortNames (l : List FName) : List FName :=
  List.insertionSort (fun a b => strLeB a b = true) l

/-- Embeds the `further validation` loop of `main`.  The first list argument is
the suffix of the edited list from the current index `i` on, the second the
suffix of the sorted edited copy from the same index.  Each step mirrors the C
body: the delete-marker `continue`, the collision check (membership in the
sorted input list is `bsearch` via `filename_list_has`, embedded as list
membership), the last-index `continue`, and the adjacent-duplicate comparison
on the sorted copy. -/
def validationLoop (force : Bool) (dc : Char) (inits : List FName) (fs : Finset FName) :
    List FName → List FName → Except CbrError Unit
  | [], _ => .ok ()
  | nf :: rest, sortedNew =>
    if firstCharIs dc nf then
      validationLoop force dc inits fs rest sortedNew.tail
    else if nf ∉ inits ∧ force = false ∧ nf ∈ fs then
      .error (.nameCollision nf)
    else if rest.isEmpty then .ok ()
    else
      match sortedNew with
      | s0 :: s1 :: srest =>
        if s0 = s1 then .error (.duplicateTarget s0)
        else validationLoop force dc inits fs rest (s1 :: srest)
      | _ => validationLoop force dc inits fs rest sortedNew.tail

/-- Classification of one (original, edited) pair, read off the branch
structure of the rename/delete loop of `main`: unchanged test first, then the
delete-marker test (split on trash mode), then the cyclic-rename test
(membership of the target in the original name list), else a direct rename. -/
inductive EntryClass where
  | unchanged
  | toTrash
  | toDelete
  | cyclicRen
  | directRen
deriving DecidableEq, Repr

/-- Decision structure of the execution loop body (`main`, rename/delete loop). -/
def classify (trash : Bool) (dc : Char) (inits : List FName) (oldN newN : FName) :
    EntryClass :=
  if oldN = newN then .unchanged
  else if firstCharIs dc newN then (if trash then .toTrash else .toDelete)
  else if newN ∈ inits then .cyclicRen
  else .directRen

/-- Embeds the rename/delete loop (phase A of the executor).  `gen` models
`generate_unique_filepath`: from the current filesystem it produces the fresh
temporary name the random probing settles on.  `rename`/`remove` failures are
modelled by their only in-model failure condition, a missing source. -/
def phaseA (cfg : Config) (inits : List FName) (gen : Finset FName → FName) :
    List (FName × FName) → ExecState → ExecState × Option CbrError
  | [], st => (st, none)
  | (oldN, newN) :: rest, st =>
    match classify cfg.trash cfg.delChar inits oldN newN with
    | .unchanged => phaseA cfg inits gen rest st
    | .toTrash => phaseA cfg inits gen rest { st with trashQ := st.trashQ ++ [oldN] }
    | .toDelete =>
      if oldN ∈ st.fs then
        phaseA cfg inits gen rest
          { st with fs := st.fs.erase oldN, ops := st.ops ++ [.removeOp oldN] }
      else (st, some (.removalError oldN))
    | .cyclicRen =>
      let temp := gen st.fs
      if oldN ∈ st.fs then
        phaseA cfg inits gen rest
          { st with fs := insert temp (st.fs.erase oldN),
                    pending := st.pending ++ [⟨oldN, temp, newN⟩],
                    ops := st.ops ++ [.renameOp oldN temp] }
      else (st, some (.renameError oldN temp))
    | .directRen =>
      if oldN ∈ st.fs then
        phaseA cfg inits gen rest
          { st with fs := insert newN (st.fs.erase oldN),
                    ops := st.ops ++ [.renameOp oldN newN] }
      else (st, some (.renameError oldN newN))

/-- Size of one `gio trash` argument batch: the 200-slot `gio_args` array holds
`"gio"`, `"trash"`, up to 197 filenames, and the terminating null pointer
(dispatch fires when `args_idx` reaches `200 - 1`). -/
def gioBatchLimit : Nat := 197

/-- Embeds the batching arithmetic of the trash loop: returns the list of
filename batches actually handed to `gio trash`.  The second argument is the
current partial buffer (filenames at indices 2.. of `gio_args`).  The final
flush reproduces the C condition `args_idx > 3`, i.e. it only happens when at
least two filenames are buffered. -/
def trashBatches : List FName → List FName → List (List FName)
  | [], buf => if 2 ≤ buf.length then [buf] else []
  | f :: rest, buf =>
    let buf2 := buf ++ [f]
    if buf2.length = gioBatchLimit then buf2 :: trashBatches rest []
    else trashBatches rest buf2

/-- Dispatches the computed batches in order; `trashOk` models the exit status
of each external `gio trash` invocation (false covers both a non-zero exit and
a failed fork/exec).  A successful invocation moves its batch out of the
filesystem. -/
def dispatchBatches (trashOk : List FName → Bool) :
    List (List FName) → ExecState → ExecState × Option CbrError
  | [], st => (st, none)
  | b :: rest, st =>
    if trashOk b then
      dispatchBatches trashOk rest
        { st with fs := st.fs \ b.toFinset, ops := st.ops ++ [.trashBatch b] }
    else (st, some .trashError)

/-- Embeds the `trash files in batches` block of `main` (phase C). -/
def phaseC (trashOk : List FName → Bool) (st : ExecState) : ExecState × Option CbrError :=
  if st.trashQ.isEmpty then (st, none)
  else dispatchBatches trashOk (trashBatches st.trashQ []) st

/-- Embeds the final loop of `main` renaming each pending temp file to its
final name (phase B in the spec's numbering). -/
def phaseB : List RenamePath → ExecState → ExecState × Option CbrError
  | [], st => (st, none)
  | rp :: rest, st =>
    if rp.temp_name ∈ st.fs then
      phaseB rest
        { st with fs := insert rp.new_name (st.fs.erase rp.temp_name),
                  ops := st.ops ++ [.renameOp rp.temp_name rp.new_name] }
    else (st, some (.renameError rp.temp_name rp.new_name))

/-- The execution engine: the rename/delete pass, then the trash batches, then
the temp-to-final renames, in the order they appear in `main`. -/
def runExec (cfg : Config) (inits : List FName) (gen : Finset FName → FName)
    (trashOk : List FName → Bool) (ps : List (FName × FName)) (fs0 : Finset FName) :
    ExecState × Option CbrError :=
  match phaseA cfg inits gen ps ⟨fs0, [], [], []⟩ with
  | (st, some e) => (st, some e)
  | (st, none) =>
    match phaseC trashOk st with
    | (st2, some e) => (st2, some e)
    | (st2, none) => phaseB st2.pending st2

deriving instance DecidableEq for Except

/-- Observable result of one program run: the exit outcome, the executed
filesystem operations in order, and the final filesystem. -/
structure RunResult where
  outcome : Except CbrError Unit
  ops : List Op
  fs : Finset FName
deriving DecidableEq

/-- Embeds `main` end to end.  `args` are the positional arguments, `dirList`
the directory listing used when `args` is empty, `editFn` the external editor
as a function from the written line list to the read-back line list, `fs0` the
filesystem at startup, `gen` the temp-name generator, `trashOk` the behaviour
of the external `gio` invocations, and `gioAvail` whether `gio` is on `PATH`.
The editor is assumed to exist and exit successfully; its failure modes abort
before any stage modelled here mutates anything. -/
def cbrRun (cfg : Config) (gioAvail : Bool) (args dirList : List FName)
    (editFn : List FName → List FName) (fs0 : Finset FName)
    (gen : Finset FName → FName) (trashOk : List FName → Bool) : RunResult :=
  if cfg.trash ∧ gioAvail = false then ⟨.error .gioMissing, [], fs0⟩
  else
    match ingest cfg.delChar args dirList with
    | .error e => ⟨.error e, [], fs0⟩
    | .ok names =>
      if names.isEmpty then ⟨.ok (), [], fs0⟩
      else
        match checkFilesExist fs0 names with
        | .error e => ⟨.error e, [], fs0⟩
        | .ok _ =>
          let src := sortNames names
          let tgt := editFn src
          if tgt.length ≠ src.length then
            ⟨.error (.mismatchedCount tgt.length src.length), [], fs0⟩
          else
            match validationLoop cfg.force cfg.delChar src fs0 tgt (sortNames tgt) with
            | .error e => ⟨.error e, [], fs0⟩
            | .ok _ =>
              match runExec cfg src gen trashOk (src.zip tgt) fs0 with
              | (st, some e) => ⟨.error e, st.ops, st.fs⟩
              | (st, none) => ⟨.ok (), st.ops, st.fs⟩

/-- Safety replay of an operation trace against a filesystem: a rename demands
a live source and a free target (a rename onto a live path would clobber it),
a removal demands a live file, a trash batch demands live files.  Returns the
resulting filesystem, or `none` as soon as an operation is unsafe. -/
def replay (fs : Finset FName) : List Op → Option (Finset FName)
  | [] => some fs
  | .renameOp o n :: rest =>
    if o ∈ fs ∧ n ∉ fs then replay (insert n (fs.erase o)) rest else none
  | .removeOp n :: rest => if n ∈ fs then replay (fs.erase n) rest else none
  | .trashBatch b :: rest =>
    if ∀ x ∈ b, x ∈ fs then replay (fs \ b.toFinset) rest else none

/-- Intended end state of one (original, edited) pair: an unchanged pair keeps
its name, a delete-marked pair keeps nothing, any other pair ends at the edited
name. -/
def keepName (dc : Char) (p : FName × FName) : Option FName :=
  if p.1 = p.2 then some p.1
  else if firstCharIs dc p.2 then none
  else some p.2

/-- Names the batch is intended to leave behind on the filesystem. -/
def keptNames (dc : Char) (ps : List (FName × FName)) : List FName :=
  ps.filterMap (keepName dc)

/-- End state of one pair during the first execution pass only: a cyclic
rename contributes its temporary name (tracked separately), so it is excluded
here. -/
def keptAName (dc : Char) (inits : List FName) (p : FName × FName) : Option FName :=
  if p.1 = p.2 then some p.1
  else if firstCharIs dc p.2 then none
  else if p.2 ∈ inits then none
  else some p.2

/-- Names left behind by the first pass, temporary names excluded. -/
def keptANames (dc : Char) (inits : List FName) (ps : List (FName × FName)) : List FName :=
  ps.filterMap (keptAName dc inits)

/-- The pairs the first pass classifies as cyclic renames, in order. -/
def cycPairs (dc : Char) (inits : List FName) (ps : List (FName × FName)) :
    List (FName × FName) :=
  ps.filter (fun p => decide (p.1 ≠ p.2) && !firstCharIs dc p.2 && decide (p.2 ∈ inits))

/-- Validation errors in the sense of spec section 7: the four kinds detected
before execution begins. -/
def isValidationError : CbrError → Bool
  | .invalidInput _ => true
  | .mismatchedCount _ _ => true
  | .nameCollision _ => true
  | .duplicateTarget _ => true
  | _ => false

/-- Deterministic fresh-name generator used to instantiate the temp-name
oracle in concrete runs: it returns a name strictly longer than every name in
`s` and in `bad`, hence distinct from all of them. -/
def freshName (bad : List FName) (s : Finset FName) : FName :=
  ⟨List.replicate ((s ∪ bad.toFinset).sup (fun x => x.data.length) + 1) 'z'⟩

/-- The (initial, new) name pairs of a pending rename-path list. -/
def pendPairs (pend : List RenamePath) : List (FName × FName) :=
  pend.map (fun r => (r.initial_name, r.new_name))

/-- The temporary names of a pending rename-path list. -/
def pendTemps (pend : List RenamePath) : List FName :=
  pend.map RenamePath.temp_name

/-- Well-formedness of the pending rename-path list after the first pass has
processed the pairs `done`: its (initial, new) pairs are exactly the cyclic
pairs of `done` in order, its temporary names are pairwise distinct, and each
temporary name avoids the original names, the edited names and the initial
filesystem. -/
def pendOk (dc : Char) (inits tgtAll : List FName) (fs0 : Finset FName)
    (done : List (FName × FName)) (pend : List RenamePath) : Prop :=
  pendPairs pend = cycPairs dc inits done ∧
  (pendTemps pend).Nodup ∧
  ∀ r ∈ pend, r.temp_name ∉ inits ∧ r.temp_name ∉ tgtAll ∧ r.temp_name ∉ fs0

/-- Characterization of the live filesystem during the first pass, after the
pairs `done` are processed and with the pairs `rest` still to process: the
untouched outside-batch names, the names the processed entries left behind,
the live temporary names, and the not-yet-processed original names. -/
def fsSpecA (fs0 : Finset FName) (dc : Char) (inits : List FName)
    (done : List (FName × FName)) (pend : List RenamePath)
    (rest : List (FName × FName)) (x : FName) : Prop :=
  (x ∈ fs0 ∧ x ∉ inits) ∨ x ∈ keptANames dc inits done ∨ x ∈ pendTemps pend ∨
    x ∈ rest.map Prod.fst

/-- Characterization of the live filesystem during the final rename pass, with
the pending entries `doneP` already landed and `left` still to land. -/
def fsSpecB (fs0 : Finset FName) (dc : Char) (inits : List FName)
    (zipAll : List (FName × FName)) (doneP left : List RenamePath)
    (x : FName) : Prop :=
  (x ∈ fs0 ∧ x ∉ inits) ∨ x ∈ keptANames dc inits zipAll ∨
    x ∈ doneP.map RenamePath.new_name ∨ x ∈ pendTemps left

theorem nameLen_le_sup (f : FName → Nat) (s : Finset FName) (b : FName)
    (hb : b ∈ s) : f b ≤ s.sup f :=
  Finset.le_sup hb

theorem freshName_not_mem (bad : List FName) (s : Finset FName) :
    freshName bad s ∉ s ∧ ∀ b ∈ bad, freshName bad s ≠ b := by
  have hlen : (freshName bad s).data.length
      = (s ∪ bad.toFinset).sup (fun x => x.data.length) + 1 := by
    simp [freshName]
  constructor
  · intro hmem
    have hle := nameLen_le_sup (fun x => x.data.length) (s ∪ bad.toFinset)
      (freshName bad s) (Finset.mem_union_left _ hmem)
    simp only at hle
    omega
  · intro b hb heq
    have hmem : b ∈ s ∪ bad.toFinset :=
      Finset.mem_union_right _ (List.mem_toFinset.mpr hb)
    have hle := nameLen_le_sup (fun x => x.data.length) (s ∪ bad.toFinset) b hmem
    simp only at hle
    rw [← heq] at hle
    omega

/-- Replaying a concatenation of traces replays the pieces in order. -/
theorem replay_append (fs : Finset FName) (l1 l2 : List Op) :
    replay fs (l1 ++ l2) = (replay fs l1).bind (fun f => replay f l2) := by
  induction l1 generalizing fs with
  | nil => simp [replay]
  | cons op rest ih =>
    cases op <;> simp only [List.cons_append, replay] <;> split <;> simp [ih]

/-- Execution-pass errors are never validation errors (first pass). -/
theorem phaseA_error_exec (cfg : Config) (inits : List FName)
    (gen : Finset FName → FName) :
    ∀ ps st st' e, phaseA cfg inits gen ps st = (st', some e) →
    isValidationError e = false := by
  intro ps
  induction ps with
  | nil => intro st st' e h; simp [phaseA] at h
  | cons p rest ih =>
    intro st st' e h
    obtain ⟨oldN, newN⟩ := p
    simp only [phaseA] at h
    split at h
    · exact ih _ _ _ h
    · exact ih _ _ _ h
    · split at h
      · exact ih _ _ _ h
      · cases h; rfl
    · split at h
      · exact ih _ _ _ h
      · cases h; rfl
    · split at h
      · exact ih _ _ _ h
      · cases h; rfl

/-- Execution-pass errors are never validation errors (trash dispatch). -/
theorem dispatchBatches_error_exec (trashOk : List FName → Bool) :
    ∀ bs st st' e, dispatchBatches trashOk bs st = (st', some e) →
    isValidationError e = false := by
  intro bs
  induction bs with
  | nil => intro st st' e h; simp [dispatchBatches] at h
  | cons b rest ih =>
    intro st st' e h
    simp only [dispatchBatches] at h
    split at h
    · exact ih _ _ _ h
    · cases h; rfl

/-- Execution-pass errors are never validation errors (trash pass). -/
theorem phaseC_error_exec (trashOk : List FName → Bool) (st st' : ExecState)
    (e : CbrError) (h : phaseC trashOk st = (st', some e)) :
    isValidationError e = false := by
  unfold phaseC at h
  split at h
  · cases h
  · exact dispatchBatches_error_exec trashOk _ _ _ _ h

/-- Execution-pass errors are never validation errors (final rename pass). -/
theorem phaseB_error_exec :
    ∀ rps st st' e, phaseB rps st = (st', some e) → isValidationError e = false := by
  intro rps
  induction rps with
  | nil => intro st st' e h; simp [phaseB] at h
  | cons rp rest ih =>
    intro st st' e h
    simp only [phaseB] at h
    split at h
    · exact ih _ _ _ h
    · cases h; rfl

/-- Errors produced by the execution engine are execution errors, never one of
the four validation errors. -/
theorem runExec_error_exec (cfg : Config) (inits : List FName)
    (gen : Finset FName → FName) (trashOk : List FName → Bool)
    (ps : List (FName × FName)) (fs0 : Finset FName) (st' : ExecState) (e : CbrError)
    (h : runExec cfg inits gen trashOk ps fs0 = (st', some e)) :
    isValidationError e = false := by
  unfold runExec at h
  split at h
  · next heq =>
    cases h
    exact phaseA_error_exec cfg inits gen _ _ _ _ heq
  · split at h
    · next heq =>
      cases h
      exact phaseC_error_exec trashOk _ _ _ heq
    · exact phaseB_error_exec _ _ _ _ h

/-- A successful existence check means every input name is on the filesystem. -/
theorem checkFilesExist_ok_mem (fs : Finset FName) :
    ∀ l, checkFilesExist fs l = .ok () → ∀ n ∈ l, n ∈ fs := by
  intro l
  induction l with
  | nil => intro _ n hn; simp at hn
  | cons a rest ih =>
    intro h n hn
    simp only [checkFilesExist] at h
    split at h
    · rcases List.mem_cons.mp hn with rfl | hn'
      · assumption
      · exact ih h n hn'
    · cases h

/-- The existence check aborts naming the first input name not on the
filesystem. -/
theorem checkFilesExist_first_missing (fs : Finset FName) :
    ∀ l m, l.find? (fun n => decide (n ∉ fs)) = some m →
    checkFilesExist fs l = .error (.missingFile m) := by
  intro l
  induction l with
  | nil => intro m h; simp at h
  | cons a rest ih =>
    intro m h
    rw [List.find?_cons] at h
    simp only [checkFilesExist]
    by_cases ha : a ∈ fs
    · rw [if_pos ha]
      have : (decide (a ∉ fs)) = false := by simp [ha]
      rw [this] at h
      exact ih m h
    · rw [if_neg ha]
      have : (decide (a ∉ fs)) = true := by simp [ha]
      rw [this] at h
      cases h
      rfl

/-- A successful validation pass certifies the collision check for every
non-delete-marked edited name: a target outside the original batch is not a
live path (when force is off). -/
theorem validationLoop_ok_no_collision (dc : Char) (inits : List FName)
    (fs : Finset FName) :
    ∀ tgts sorted, validationLoop false dc inits fs tgts sorted = .ok () →
    ∀ nf ∈ tgts, firstCharIs dc nf = false → nf ∉ inits → nf ∉ fs := by
  intro tgts
  induction tgts with
  | nil => intro sorted _ nf hnf; simp at hnf
  | cons t rest ih =>
    intro sorted h nf hnf hmark hinit
    simp only [validationLoop] at h
    split at h
    · next hm =>
      rcases List.mem_cons.mp hnf with rfl | hnf'
      · rw [hmark] at hm; cases hm
      · exact ih _ h nf hnf' hmark hinit
    · next hm =>
      split at h
      · cases h
      · next hc =>
        rcases List.mem_cons.mp hnf with rfl | hnf'
        · intro hfs; exact hc ⟨hinit, by trivial, hfs⟩
        · split at h
          · next he =>
            rw [List.isEmpty_iff] at he; subst he; simp at hnf'
          · split at h
            all_goals
              first
                | exact ih _ h nf hnf' hmark hinit
                | (split at h <;>
                    first
                      | cases h
                      | exact ih _ h nf hnf' hmark hinit)

/-- A `NameCollisionError` pinpoints a real collision: the reported name is a
non-delete-marked edited entry outside the original batch that exists on the
filesystem, and only a run without force can produce it. -/
theorem validationLoop_collision_sound (force : Bool) (dc : Char)
    (inits : List FName) (fs : Finset FName) :
    ∀ tgts sorted p,
    validationLoop force dc inits fs tgts sorted = .error (.nameCollision p) →
    p ∈ tgts ∧ firstCharIs dc p = false ∧ p ∉ inits ∧ force = false ∧ p ∈ fs := by
  intro tgts
  induction tgts with
  | nil => intro sorted p h; simp [validationLoop] at h
  | cons t rest ih =>
    intro sorted p h
    have step : ∀ sorted',
        validationLoop force dc inits fs rest sorted' = .error (.nameCollision p) →
        p ∈ t :: rest ∧ firstCharIs dc p = false ∧ p ∉ inits ∧
          force = false ∧ p ∈ fs := by
      intro sorted' h'
      obtain ⟨h1, h2, h3, h4, h5⟩ := ih _ p h'
      exact ⟨List.mem_cons_of_mem _ h1, h2, h3, h4, h5⟩
    simp only [validationLoop] at h
    split at h
    · exact step _ h
    · next hm =>
      split at h
      · next hc =>
        cases h
        exact ⟨List.mem_cons_self _ _, by simpa using hm, hc.1, hc.2.1, hc.2.2⟩
      · split at h
        · cases h
        · split at h
          all_goals
            first
              | exact step _ h
              | (split at h <;>
                  first
                    | cases h
                    | exact step _ h)

/-- With force set, the collision branch can never fire. -/
theorem validationLoop_force_no_collision (dc : Char) (inits : List FName)
    (fs : Finset FName) (tgts sorted : List FName) (p : FName) :
    validationLoop true dc inits fs tgts sorted ≠ .error (.nameCollision p) := by
  intro h
  obtain ⟨-, -, -, hf, -⟩ := validationLoop_collision_sound true dc inits fs tgts sorted p h
  cases hf

/-- An unchanged pair is skipped by the execution loop before any other test,
including the delete-marker test. -/
theorem phaseA_skip_unchanged (cfg : Config) (inits : List FName)
    (gen : Finset FName → FName) (x : FName) (rest : List (FName × FName))
    (st : ExecState) :
    phaseA cfg inits gen ((x, x) :: rest) st = phaseA cfg inits gen rest st := by
  simp [phaseA, classify]

/-- Feeding every name back unchanged makes the whole first pass a no-op. -/
theorem phaseA_diag (cfg : Config) (inits : List FName)
    (gen : Finset FName → FName) :
    ∀ (l : List FName) (st : ExecState),
    phaseA cfg inits gen (l.zip l) st = (st, none) := by
  intro l
  induction l with
  | nil => intro st; simp [phaseA]
  | cons x xs ih =>
    intro st
    rw [List.zip_cons_cons, phaseA_skip_unchanged]
    exact ih st

/-- Feeding every name back unchanged makes the whole execution a no-op. -/
theorem runExec_diag (cfg : Config) (inits : List FName)
    (gen : Finset FName → FName) (trashOk : List FName → Bool)
    (l : List FName) (fs0 : Finset FName) :
    runExec cfg inits gen trashOk (l.zip l) fs0 = (⟨fs0, [], [], []⟩, none) := by
  unfold runExec
  rw [phaseA_diag]
  simp [phaseC, phaseB]

/-- Distinct original names make the zipped pairing pairwise-distinct in its
first components. -/
theorem pairwise_fst_of_nodup :
    ∀ (src tgt : List FName), src.Nodup →
    (src.zip tgt).Pairwise (fun p q => p.1 ≠ q.1) := by
  intro src
  induction src with
  | nil => intro tgt _; simp
  | cons s ss ih =>
    intro tgt hn
    cases tgt with
    | nil => simp
    | cons t ts =>
      rw [List.zip_cons_cons, List.pairwise_cons]
      rw [List.nodup_cons] at hn
      refine ⟨?_, ih ts hn.2⟩
      rintro ⟨a, b⟩ hq hcontra
      have ha : a ∈ ss := (List.of_mem_zip hq).1
      have hsa : s = a := hcontra
      rw [← hsa] at ha
      exact hn.1 ha

/-- Distinctness of the non-delete-marked edited entries makes the zipped
pairing pairwise-distinct in its non-marked second components. -/
theorem pairwise_snd_of_filter_nodup (dc : Char) :
    ∀ (src tgt : List FName),
    (tgt.filter (fun t => !firstCharIs dc t)).Nodup →
    (src.zip tgt).Pairwise
      (fun p q => firstCharIs dc p.2 = false → firstCharIs dc q.2 = false →
        p.2 ≠ q.2) := by
  intro src
  induction src with
  | nil => intro tgt _; simp
  | cons s ss ih =>
    intro tgt hn
    cases tgt with
    | nil => simp
    | cons t ts =>
      rw [List.zip_cons_cons, List.pairwise_cons]
      have hnt : (ts.filter (fun x => !firstCharIs dc x)).Nodup := by
        by_cases hm : firstCharIs dc t
        · rw [List.filter_cons] at hn
          simpa [hm] using hn
        · rw [List.filter_cons] at hn
          rw [if_pos (by simp [hm])] at hn
          exact (List.nodup_cons.mp hn).2
      refine ⟨?_, ih ts hnt⟩
      rintro ⟨a, b⟩ hq hmt hmb
      have hmt' : firstCharIs dc t = false := hmt
      have hmb' : firstCharIs dc b = false := hmb
      have hb : b ∈ ts := (List.of_mem_zip hq).2
      have hbf : b ∈ ts.filter (fun x => !firstCharIs dc x) :=
        List.mem_filter.mpr ⟨hb, by simp [hmb']⟩
      rw [List.filter_cons] at hn
      rw [if_pos (by simp [hmt'])] at hn
      intro hcontra
      have htb : t = b := hcontra
      rw [← htb] at hbf
      exact (List.nodup_cons.mp hn).1 hbf

/-- Membership of a cyclic pair unpacks to the three classification facts. -/
theorem mem_cycPairs (dc : Char) (inits : List FName)
    (ps : List (FName × FName)) (p : FName × FName) :
    p ∈ cycPairs dc inits ps ↔
      p ∈ ps ∧ p.1 ≠ p.2 ∧ firstCharIs dc p.2 = false ∧ p.2 ∈ inits := by
  simp [cycPairs, List.mem_filter, and_assoc]

/-- The intended end-state names are, up to reordering, the first-pass names
together with the cyclic targets landed by the second pass. -/
theorem keptNames_perm (dc : Char) (inits : List FName) :
    ∀ (ps : List (FName × FName)),
    List.Perm (keptNames dc ps)
      (keptANames dc inits ps ++ (cycPairs dc inits ps).map Prod.snd) := by
  intro ps
  induction ps with
  | nil => simp [keptNames, keptANames, cycPairs]
  | cons p rest ih =>
    obtain ⟨a, b⟩ := p
    simp only [keptNames, keptANames, cycPairs] at *
    by_cases hab : a = b
    · subst hab
      rw [List.filterMap_cons_some (show keepName dc (a, a) = some a by simp [keepName]),
        List.filterMap_cons_some
          (show keptAName dc inits (a, a) = some a by simp [keptAName]),
        List.filter_cons_of_neg (by simp), List.cons_append]
      exact ih.cons a
    · by_cases hm : firstCharIs dc b
      · rw [List.filterMap_cons_none (by simp [keepName, hab, hm]),
          List.filterMap_cons_none (by simp [keptAName, hab, hm]),
          List.filter_cons_of_neg (by simp [hm])]
        exact ih
      · by_cases hi : b ∈ inits
        · rw [List.filterMap_cons_some
              (show keepName dc (a, b) = some b by simp [keepName, hab, hm]),
            List.filterMap_cons_none (by simp [keptAName, hab, hm, hi]),
            List.filter_cons_of_pos (by simp [hab, hm, hi]), List.map_cons]
          exact (ih.cons b).trans List.perm_middle.symm
        · rw [List.filterMap_cons_some
              (show keepName dc (a, b) = some b by simp [keepName, hab, hm]),
            List.filterMap_cons_some
              (show keptAName dc inits (a, b) = some b by simp [keptAName, hab, hm, hi]),
            List.filter_cons_of_neg (by simp [hi]), List.cons_append]
          exact ih.cons b

/-- Every first-pass kept name is an original name (unchanged slot) or an
edited name (rename target slot). -/
theorem keptANames_mem_bound (dc : Char) (inits : List FName) :
    ∀ (ps : List (FName × FName)) (x : FName), x ∈ keptANames dc inits ps →
    x ∈ ps.map Prod.fst ∨ x ∈ ps.map Prod.snd := by
  intro ps
  induction ps with
  | nil => intro x h; simp [keptANames] at h
  | cons p rest ih =>
    intro x h
    obtain ⟨a, b⟩ := p
    simp only [keptANames, List.filterMap_cons] at h
    simp only [List.map_cons]
    have hsplit : keptAName dc inits (a, b) = some x →
        x = a ∨ x = b := by
      intro hx
      unfold keptAName at hx
      split at hx
      · left; cases hx; rfl
      · split at hx
        · cases hx
        · split at hx
          · cases hx
          · right; cases hx; rfl
    rcases hval : keptAName dc inits (a, b) with _ | v
    · rw [hval] at h
      rcases ih x h with h'' | h''
      · left; exact List.mem_cons_of_mem _ h''
      · right; exact List.mem_cons_of_mem _ h''
    · rw [hval] at h
      rcases List.mem_cons.mp h with rfl | h'
      · rcases hsplit hval with rfl | rfl
        · left; exact List.mem_cons_self _ _
        · right; exact List.mem_cons_self _ _
      · rcases ih x h' with h'' | h''
        · left; exact List.mem_cons_of_mem _ h''
        · right; exact List.mem_cons_of_mem _ h''

/-- Execution of a single cyclic-rename entry: one rename to a fresh temporary
name in the first pass, one rename from the temporary name to the edited name
in the final pass. -/
theorem runExec_single_cyclic (cfg : Config) (inits : List FName)
    (gen : Finset FName → FName) (trashOk : List FName → Bool)
    (oldN newN : FName) (fs0 : Finset FName)
    (hne : oldN ≠ newN) (hm : firstCharIs cfg.delChar newN = false)
    (hmem : newN ∈ inits) (hfs : oldN ∈ fs0) :
    (runExec cfg inits gen trashOk [(oldN, newN)] fs0).2 = none ∧
    (runExec cfg inits gen trashOk [(oldN, newN)] fs0).1.ops =
      [.renameOp oldN (gen fs0), .renameOp (gen fs0) newN] := by
  have hcl : classify cfg.trash cfg.delChar inits oldN newN = .cyclicRen := by
    simp [classify, hne, hm, hmem]
  unfold runExec
  simp only [phaseA, hcl]
  rw [if_pos hfs]
  simp [phaseA, phaseC, phaseB]

/-- Execution of a single direct-rename entry: one immediate rename. -/
theorem runExec_single_direct (cfg : Config) (inits : List FName)
    (gen : Finset FName → FName) (trashOk : List FName → Bool)
    (oldN newN : FName) (fs0 : Finset FName)
    (hne : oldN ≠ newN) (hm : firstCharIs cfg.delChar newN = false)
    (hmem : newN ∉ inits) (hfs : oldN ∈ fs0) :
    (runExec cfg inits gen trashOk [(oldN, newN)] fs0).2 = none ∧
    (runExec cfg inits gen trashOk [(oldN, newN)] fs0).1.ops =
      [.renameOp oldN newN] := by
  have hcl : classify cfg.trash cfg.delChar inits oldN newN = .directRen := by
    simp [classify, hne, hm, hmem]
  unfold runExec
  simp only [phaseA, hcl]
  rw [if_pos hfs]
  simp [phaseA, phaseC, phaseB]

/-- Claim C1: if a run aborts with one of the four validation errors
(reserved-character input, mismatched line count, name collision, duplicate
target), then no rename, removal or trash operation has been executed and the
filesystem is unchanged. -/
theorem c1_validation_errors_precede_mutation
    (cfg : Config) (gioAvail : Bool) (args dirList : List FName)
    (editFn : List FName → List FName) (fs0 : Finset FName)
    (gen : Finset FName → FName) (trashOk : List FName → Bool)
    (r : RunResult) (e : CbrError)
    (hrun : cbrRun cfg gioAvail args dirList editFn fs0 gen trashOk = r)
    (herr : r.outcome = .error e) (hval : isValidationError e = true) :
    r.ops = [] ∧ r.fs = fs0 := by
  simp only [cbrRun] at hrun
  split at hrun
  · subst hrun; exact ⟨rfl, rfl⟩
  · split at hrun
    · subst hrun; exact ⟨rfl, rfl⟩
    · split at hrun
      · subst hrun; exact ⟨rfl, rfl⟩
      · split at hrun
        · subst hrun; exact ⟨rfl, rfl⟩
        · split at hrun
          · subst hrun; exact ⟨rfl, rfl⟩
          · split at hrun
            · subst hrun; exact ⟨rfl, rfl⟩
            · split at hrun
              · next st e' heq =>
                subst hrun
                simp only at herr
                injection herr with h
                subst h
                have hexec := runExec_error_exec _ _ _ _ _ _ _ _ heq
                rw [hval] at hexec
                cases hexec
              · subst hrun
                simp at herr

/-- Claim C8: feeding the original name list back unchanged performs zero
filesystem mutations: the operation trace is empty and the filesystem final
state is the initial one. -/
theorem c8_roundtrip_no_mutation
    (cfg : Config) (gioAvail : Bool) (args dirList : List FName)
    (editFn : List FName → List FName) (fs0 : Finset FName)
    (gen : Finset FName → FName) (trashOk : List FName → Bool)
    (r : RunResult)
    (hed : ∀ l, editFn l = l)
    (hrun : cbrRun cfg gioAvail args dirList editFn fs0 gen trashOk = r) :
    r.ops = [] ∧ r.fs = fs0 := by
  simp only [cbrRun] at hrun
  split at hrun
  · subst hrun; exact ⟨rfl, rfl⟩
  · split at hrun
    · subst hrun; exact ⟨rfl, rfl⟩
    · split at hrun
      · subst hrun; exact ⟨rfl, rfl⟩
      · split at hrun
        · subst hrun; exact ⟨rfl, rfl⟩
        · split at hrun
          · subst hrun; exact ⟨rfl, rfl⟩
          · split at hrun
            · subst hrun; exact ⟨rfl, rfl⟩
            · split at hrun
              · next st e' heq =>
                rw [hed, runExec_diag] at heq
                simp at heq
              · next st heq =>
                rw [hed, runExec_diag] at heq
                simp only [Prod.mk.injEq] at heq
                rw [← heq.1] at hrun
                subst hrun
                exact ⟨rfl, rfl⟩

/-- Claim C10: the unchanged test precedes the delete-marker test in the
execution loop: a pair whose edited name equals its original name is a no-op
even when that name begins with the delete-marker character. -/
theorem c10_unchanged_precedes_marker (trash : Bool) (dc : Char) (inits : List FName)
    (x : FName) (hmark : firstCharIs dc x = true) :
    classify trash dc inits x x = .unchanged ∧
    ∀ (cfg : Config) (gen : Finset FName → FName) (rest : List (FName × FName))
      (st : ExecState),
      phaseA cfg inits gen ((x, x) :: rest) st = phaseA cfg inits gen rest st := by
  refine ⟨by simp [classify], ?_⟩
  intro cfg gen rest st
  exact phaseA_skip_unchanged cfg inits gen x rest st

/-- Claim C5: classification of a changed entry.  A delete-marked edited name
is classified for deletion (or trashing) whatever follows the marker
character; otherwise membership of the edited name in the original list makes
the entry a cyclic rename executed in two passes through a fresh temporary
name, and a non-member is a direct rename executed as one immediate rename. -/
theorem c5_classification (trash : Bool) (dc : Char) (inits : List FName) :
    (∀ (oldN : FName) (cs : List Char), oldN ≠ ⟨dc :: cs⟩ →
      classify trash dc inits oldN ⟨dc :: cs⟩ =
        (if trash then .toTrash else .toDelete)) ∧
    (∀ oldN newN, oldN ≠ newN → firstCharIs dc newN = false → newN ∈ inits →
      classify trash dc inits oldN newN = .cyclicRen) ∧
    (∀ oldN newN, oldN ≠ newN → firstCharIs dc newN = false → newN ∉ inits →
      classify trash dc inits oldN newN = .directRen) ∧
    (∀ (cfg : Config) (gen : Finset FName → FName) (trashOk : List FName → Bool)
      (oldN newN : FName) (fs0 : Finset FName),
      oldN ≠ newN → firstCharIs cfg.delChar newN = false → newN ∈ inits →
      oldN ∈ fs0 →
      (runExec cfg inits gen trashOk [(oldN, newN)] fs0).2 = none ∧
      (runExec cfg inits gen trashOk [(oldN, newN)] fs0).1.ops =
        [.renameOp oldN (gen fs0), .renameOp (gen fs0) newN]) ∧
    (∀ (cfg : Config) (gen : Finset FName → FName) (trashOk : List FName → Bool)
      (oldN newN : FName) (fs0 : Finset FName),
      oldN ≠ newN → firstCharIs cfg.delChar newN = false → newN ∉ inits →
      oldN ∈ fs0 →
      (runExec cfg inits gen trashOk [(oldN, newN)] fs0).2 = none ∧
      (runExec cfg inits gen trashOk [(oldN, newN)] fs0).1.ops =
        [.renameOp oldN newN]) := by
  refine ⟨?_, ?_, ?_, ?_, ?_⟩
  · intro oldN cs hne
    have hm : firstCharIs dc ⟨dc :: cs⟩ = true := by simp [firstCharIs]
    simp [classify, hne, hm]
  · intro oldN newN hne hm hmem
    simp [classify, hne, hm, hmem]
  · intro oldN newN hne hm hmem
    simp [classify, hne, hm, hmem]
  · intro cfg gen trashOk oldN newN fs0 hne hm hmem hfs
    exact runExec_single_cyclic cfg inits gen trashOk oldN newN fs0 hne hm hmem hfs
  · intro cfg gen trashOk oldN newN fs0 hne hm hmem hfs
    exact runExec_single_direct cfg inits gen trashOk oldN newN fs0 hne hm hmem hfs

/-- Claim C4: the collision check.  A reported `NameCollisionError` names a
non-delete-marked edited entry outside the original batch that already exists
on the filesystem, with force unset; conversely, with force unset such an
entry never validates successfully; and with force set the collision check is
bypassed entirely, so no `NameCollisionError` can be produced. -/
theorem c4_collision_check (dc : Char) (inits : List FName) (fs : Finset FName)
    (tgts sorted : List FName) :
    (∀ (force : Bool) (p : FName),
      validationLoop force dc inits fs tgts sorted = .error (.nameCollision p) →
      p ∈ tgts ∧ firstCharIs dc p = false ∧ p ∉ inits ∧ force = false ∧ p ∈ fs) ∧
    (∀ nf ∈ tgts, firstCharIs dc nf = false → nf ∉ inits → nf ∈ fs →
      validationLoop false dc inits fs tgts sorted ≠ .ok ()) ∧
    (∀ p : FName,
      validationLoop true dc inits fs tgts sorted ≠ .error (.nameCollision p)) := by
  refine ⟨?_, ?_, ?_⟩
  · intro force p h
    exact validationLoop_collision_sound force dc inits fs tgts sorted p h
  · intro nf hmem hmark hinit hfs hok
    exact validationLoop_ok_no_collision dc inits fs tgts sorted hok nf hmem hmark
      hinit hfs
  · intro p
    exact validationLoop_force_no_collision dc inits fs tgts sorted p

/-- The existence check only ever reports a missing file. -/
theorem checkFilesExist_error_kind (fs : Finset FName) :
    ∀ l e, checkFilesExist fs l = .error e → ∃ m, e = .missingFile m := by
  intro l
  induction l with
  | nil => intro e h; simp [checkFilesExist] at h
  | cons a rest ih =>
    intro e h
    simp only [checkFilesExist] at h
    split at h
    · exact ih e h
    · cases h; exact ⟨a, rfl⟩

/-- The validation loop only ever reports a collision or a duplicate target. -/
theorem validationLoop_error_kind (force : Bool) (dc : Char) (inits : List FName)
    (fs : Finset FName) :
    ∀ tgts sorted e, validationLoop force dc inits fs tgts sorted = .error e →
    (∃ p, e = .nameCollision p) ∨ (∃ p, e = .duplicateTarget p) := by
  intro tgts
  induction tgts with
  | nil => intro sorted e h; simp [validationLoop] at h
  | cons t rest ih =>
    intro sorted e h
    simp only [validationLoop] at h
    split at h
    · exact ih _ e h
    · split at h
      · cases h; exact Or.inl ⟨t, rfl⟩
      · split at h
        · cases h
        · split at h
          all_goals
            first
              | exact ih _ e h
              | (split at h <;>
                  first
                    | (cases h; exact Or.inr ⟨_, rfl⟩)
                    | exact ih _ e h)

/-- Directory ingestion aborts at the first delete-marked entry, in directory
order. -/
theorem collectDirNames_first_marked (dc : Char) (e : FName) (post : List FName)
    (hm : firstCharIs dc e = true) :
    ∀ pre, (∀ x ∈ pre, firstCharIs dc x = false) →
    collectDirNames dc (pre ++ e :: post) = .error (.invalidInput e) := by
  intro pre
  induction pre with
  | nil =>
    intro _
    simp only [List.nil_append, collectDirNames]
    rw [if_pos hm]
  | cons a pre' ih =>
    intro hpre
    have ha : firstCharIs dc a = false := hpre a (List.mem_cons_self _ _)
    simp only [List.cons_append, collectDirNames]
    rw [if_neg (by simp [ha])]
    simp only [List.append_eq]
    rw [ih (fun x hx => hpre x (List.mem_cons_of_mem _ hx))]

/-- Claim C3 (code bug): the duplicate-target check keys its per-index skip to
the delete-marker status of the original-order entry while comparing entries
of the sorted copy at the same positional index.  Consequently an edited list
whose only duplicates are delete-marked entries can fail with
`DuplicateTargetError`, while two non-delete-marked slots with the same target
can pass validation. -/
theorem c3_duplicate_check_bug :
    validationLoop false '#' ["a", "b", "c"] {"a", "b", "c"}
      ["x", "#", "#"] (sortNames ["x", "#", "#"]) =
      .error (.duplicateTarget "#") ∧
    validationLoop false '#' ["a", "b", "c"] {"a", "b", "c"}
      ["x", "#m", "x"] (sortNames ["x", "#m", "x"]) = .ok () := by
  constructor
  · decide
  · decide

/-- Claim C6 (code bug): the final flush of the trash batch loop only runs
when at least two filenames are buffered (`args_idx > 3`), so a trailing batch
of exactly one queued file is never handed to `gio`; a run queuing a single
file for trashing completes successfully with no trash invocation at all,
while a two-file batch is dispatched. -/
theorem c6_trash_batch_bug :
    trashBatches ["a"] [] = [] ∧
    trashBatches ["a", "b"] [] = [["a", "b"]] ∧
    cbrRun ⟨false, false, true, '#'⟩ true ["a", "b"] [] (fun _ => ["#", "b"])
      {"a", "b"} (fun _ => "t") (fun _ => true) =
      ⟨.ok (), [], {"a", "b"}⟩ := by
  refine ⟨by decide, by decide, by decide⟩

/-- Claim C7 (counterexample): an explicit filename argument beginning with
the delete-marker character is accepted by ingestion; the run below completes
successfully even though its only input name starts with the marker. -/
theorem c7_counterexample :
    firstCharIs '#' "#f" = true ∧
    cbrRun ⟨false, false, false, '#'⟩ true ["#f"] [] (fun l => l) {"#f"}
      (fun _ => "t") (fun _ => true) = ⟨.ok (), [], {"#f"}⟩ := by
  refine ⟨by decide, by decide⟩

/-- Claim C9 (counterexample): directory-sourced names are not exempt from the
existence check; a directory-listed name absent from the filesystem aborts the
run with an error naming it. -/
theorem c9_counterexample :
    cbrRun ⟨false, false, false, '#'⟩ true [] ["a"] (fun l => l) ∅
      (fun _ => "t") (fun _ => true) = ⟨.error (.missingFile "a"), [], ∅⟩ := by
  decide

/-- Claim C2 (counterexample): a run on originals a, b, c with edited lines
x, #m, x raises no error, yet its trace renames two distinct files to the
same path: the replay of the trace rejects the second rename because its
target is live at that instant, refuting the claimed no-collision property. -/
theorem c2_counterexample :
    (cbrRun ⟨false, false, false, '#'⟩ true ["a", "b", "c"] []
      (fun _ => ["x", "#m", "x"]) {"a", "b", "c"} (fun _ => "t")
      (fun _ => true)).outcome = .ok () ∧
    replay {"a", "b", "c"}
      ((cbrRun ⟨false, false, false, '#'⟩ true ["a", "b", "c"] []
        (fun _ => ["x", "#m", "x"]) {"a", "b", "c"} (fun _ => "t")
        (fun _ => true)).ops) = none := by
  refine ⟨by decide, by decide⟩

/-- Claim C7 (amended): the delete-marker ingestion check applies exactly to
directory-sampled candidates.  With no positional arguments, the first
directory entry beginning with the marker aborts the run with `invalidInput`
before any mutation; with explicit arguments the check is skipped entirely, so
ingestion can never raise `invalidInput`. -/
theorem c7_amended_marker_check
    (cfg : Config) (gioAvail : Bool) (dirList : List FName)
    (editFn : List FName → List FName) (fs0 : Finset FName)
    (gen : Finset FName → FName) (trashOk : List FName → Bool) :
    (∀ (pre : List FName) (e : FName) (post : List FName),
      ¬(cfg.trash ∧ gioAvail = false) →
      (∀ x ∈ pre, firstCharIs cfg.delChar x = false) →
      firstCharIs cfg.delChar e = true →
      dirList = pre ++ e :: post →
      cbrRun cfg gioAvail [] dirList editFn fs0 gen trashOk =
        ⟨.error (.invalidInput e), [], fs0⟩) ∧
    (∀ (args : List FName) (x : FName), args ≠ [] →
      (cbrRun cfg gioAvail args dirList editFn fs0 gen trashOk).outcome ≠
        .error (.invalidInput x)) := by
  constructor
  · intro pre e post hgio hpre hme hdir
    have hing : ingest cfg.delChar [] dirList = .error (.invalidInput e) := by
      rw [hdir]
      simp only [ingest, List.isEmpty_nil, if_pos rfl]
      exact collectDirNames_first_marked cfg.delChar e post hme pre hpre
    simp only [cbrRun]
    rw [if_neg hgio, hing]
  · intro args x hargs hcontra
    have hing : ingest cfg.delChar args dirList = .ok args := by
      have : args.isEmpty = false := by
        cases args with
        | nil => exact absurd rfl hargs
        | cons a l => rfl
      simp [ingest, this]
    simp only [cbrRun, hing] at hcontra
    split at hcontra
    · simp at hcontra
    · split at hcontra
      · simp at hcontra
      · split at hcontra
        · next e' heq =>
          simp only at hcontra
          injection hcontra with h
          obtain ⟨m, hm⟩ := checkFilesExist_error_kind fs0 args e' heq
          rw [hm] at h
          cases h
        · split at hcontra
          · simp at hcontra
          · split at hcontra
            · next e' heq =>
              simp only at hcontra
              injection hcontra with h
              rcases validationLoop_error_kind cfg.force cfg.delChar _ fs0 _ _ e' heq
                with ⟨p, hp⟩ | ⟨p, hp⟩
              · rw [hp] at h; cases h
              · rw [hp] at h; cases h
            · split at hcontra
              · next st e' heq =>
                simp only at hcontra
                injection hcontra with h
                have hexec := runExec_error_exec _ _ _ _ _ _ _ _ heq
                rw [h] at hexec
                cases hexec
              · simp at hcontra

/-- Claim C9 (amended): the pre-editor existence check runs over the whole
ingested list, directory-sourced names included, aborting with an error naming
the first missing name; the abort happens before the editor is consulted, so
the result is independent of the editor function. -/
theorem c9_amended_existence_check
    (cfg : Config) (gioAvail : Bool) (args dirList : List FName)
    (editFn1 editFn2 : List FName → List FName) (fs0 : Finset FName)
    (gen : Finset FName → FName) (trashOk : List FName → Bool)
    (names : List FName) (m : FName)
    (hgio : ¬(cfg.trash ∧ gioAvail = false))
    (hing : ingest cfg.delChar args dirList = .ok names)
    (hfind : names.find? (fun n => decide (n ∉ fs0)) = some m) :
    m ∈ names ∧ m ∉ fs0 ∧
    cbrRun cfg gioAvail args dirList editFn1 fs0 gen trashOk =
      ⟨.error (.missingFile m), [], fs0⟩ ∧
    cbrRun cfg gioAvail args dirList editFn1 fs0 gen trashOk =
      cbrRun cfg gioAvail args dirList editFn2 fs0 gen trashOk := by
  have hmem : m ∈ names := List.mem_of_find?_eq_some hfind
  have hnot : m ∉ fs0 := by
    have := List.find?_some hfind
    simpa using this
  have hne : names.isEmpty = false := by
    cases names with
    | nil => simp at hfind
    | cons a l => rfl
  have hchk := checkFilesExist_first_missing fs0 names m hfind
  have hrun : ∀ editFn : List FName → List FName,
      cbrRun cfg gioAvail args dirList editFn fs0 gen trashOk =
        ⟨.error (.missingFile m), [], fs0⟩ := by
    intro editFn
    simp only [cbrRun]
    rw [if_neg hgio, hing]
    simp only [hne, Bool.false_eq_true, if_false, hchk]
  exact ⟨hmem, hnot, hrun editFn1, (hrun editFn1).trans (hrun editFn2).symm⟩

/-- Witness for C1: a concrete run aborting with a duplicate-target validation
error has an empty operation trace and an unchanged filesystem. -/
theorem c1_witness :
    isValidationError (.duplicateTarget "x") = true ∧
    (cbrRun ⟨false, false, false, '#'⟩ true ["a", "b"] [] (fun _ => ["x", "x"])
      {"a", "b"} (fun _ => "t") (fun _ => true)).ops = [] ∧
    (cbrRun ⟨false, false, false, '#'⟩ true ["a", "b"] [] (fun _ => ["x", "x"])
      {"a", "b"} (fun _ => "t") (fun _ => true)).fs = {"a", "b"} :=
  ⟨by decide,
    c1_validation_errors_precede_mutation ⟨false, false, false, '#'⟩ true
      ["a", "b"] [] (fun _ => ["x", "x"]) {"a", "b"} (fun _ => "t")
      (fun _ => true) _ (.duplicateTarget "x") rfl (by decide) (by decide)⟩

/-- Witness for C8: a concrete identity edit performs zero mutations. -/
theorem c8_witness :
    (cbrRun ⟨false, false, false, '#'⟩ true ["a"] [] (fun l => l) {"a"}
      (fun _ => "t") (fun _ => true)).ops = [] ∧
    (cbrRun ⟨false, false, false, '#'⟩ true ["a"] [] (fun l => l) {"a"}
      (fun _ => "t") (fun _ => true)).fs = {"a"} :=
  c8_roundtrip_no_mutation ⟨false, false, false, '#'⟩ true ["a"] [] (fun l => l)
    {"a"} (fun _ => "t") (fun _ => true) _ (fun _ => rfl) rfl

/-- Witness for C10: a concrete unchanged pair whose shared name begins with
the delete marker is classified unchanged and skipped by the first pass. -/
theorem c10_witness :
    firstCharIs '#' "#a" = true ∧
    classify true '#' ["#a"] "#a" "#a" = .unchanged ∧
    phaseA ⟨false, false, false, '#'⟩ ["#a"] (fun _ => "t") [("#a", "#a")]
      ⟨{"#a"}, [], [], []⟩ =
      phaseA ⟨false, false, false, '#'⟩ ["#a"] (fun _ => "t") []
        ⟨{"#a"}, [], [], []⟩ :=
  ⟨by decide,
    (c10_unchanged_precedes_marker true '#' ["#a"] "#a" (by decide)).1,
    (c10_unchanged_precedes_marker true '#' ["#a"] "#a" (by decide)).2
      ⟨false, false, false, '#'⟩ (fun _ => "t") [] ⟨{"#a"}, [], [], []⟩⟩

/-- Witness for C5: concrete classifications and single-entry executions. -/
theorem c5_witness :
    classify false '#' ["a", "b"] "a" (⟨['#', 'x']⟩ : FName) = .toDelete ∧
    classify false '#' ["a", "b"] "a" "b" = .cyclicRen ∧
    classify false '#' ["a", "b"] "a" "x" = .directRen ∧
    ((runExec ⟨false, false, false, '#'⟩ ["a", "b"] (fun _ => "t")
        (fun _ => true) [("a", "b")] {"a", "b"}).2 = none ∧
      (runExec ⟨false, false, false, '#'⟩ ["a", "b"] (fun _ => "t")
        (fun _ => true) [("a", "b")] {"a", "b"}).1.ops =
        [.renameOp "a" "t", .renameOp "t" "b"]) ∧
    ((runExec ⟨false, false, false, '#'⟩ ["a", "b"] (fun _ => "t")
        (fun _ => true) [("a", "x")] {"a", "b"}).2 = none ∧
      (runExec ⟨false, false, false, '#'⟩ ["a", "b"] (fun _ => "t")
        (fun _ => true) [("a", "x")] {"a", "b"}).1.ops = [.renameOp "a" "x"]) :=
  ⟨(c5_classification false '#' ["a", "b"]).1 "a" ['x'] (by decide),
    (c5_classification false '#' ["a", "b"]).2.1 "a" "b" (by decide) (by decide)
      (by decide),
    (c5_classification false '#' ["a", "b"]).2.2.1 "a" "x" (by decide) (by decide)
      (by decide),
    (c5_classification false '#' ["a", "b"]).2.2.2.1 ⟨false, false, false, '#'⟩
      (fun _ => "t") (fun _ => true) "a" "b" {"a", "b"} (by decide) (by decide)
      (by decide) (by decide),
    (c5_classification false '#' ["a", "b"]).2.2.2.2 ⟨false, false, false, '#'⟩
      (fun _ => "t") (fun _ => true) "a" "x" {"a", "b"} (by decide) (by decide)
      (by decide) (by decide)⟩

/-- Witness for C4: a concrete collision is reported without force, refutes
validation success without force, and cannot be reported with force. -/
theorem c4_witness :
    ("x" ∈ ["x"] ∧ firstCharIs '#' "x" = false ∧ "x" ∉ ["a"] ∧ false = false ∧
      "x" ∈ ({"a", "x"} : Finset FName)) ∧
    validationLoop false '#' ["a"] {"a", "x"} ["x"] ["x"] ≠ .ok () ∧
    validationLoop true '#' ["a"] {"a", "x"} ["x"] ["x"] ≠
      .error (.nameCollision "x") :=
  ⟨(c4_collision_check '#' ["a"] {"a", "x"} ["x"] ["x"]).1 false "x" (by decide),
    (c4_collision_check '#' ["a"] {"a", "x"} ["x"] ["x"]).2.1 "x" (by decide)
      (by decide) (by decide) (by decide),
    (c4_collision_check '#' ["a"] {"a", "x"} ["x"] ["x"]).2.2 "x"⟩

/-- Witness for the amended C7: a marked directory entry aborts ingestion, and
a run started from explicit arguments never reports `invalidInput`. -/
theorem c7_witness :
    cbrRun ⟨false, false, false, '#'⟩ true [] ["a", "#b"] (fun l => l) {"a"}
      (fun _ => "t") (fun _ => true) = ⟨.error (.invalidInput "#b"), [], {"a"}⟩ ∧
    (cbrRun ⟨false, false, false, '#'⟩ true ["q"] ["a", "#b"] (fun l => l) {"a"}
      (fun _ => "t") (fun _ => true)).outcome ≠ .error (.invalidInput "#b") :=
  ⟨(c7_amended_marker_check ⟨false, false, false, '#'⟩ true ["a", "#b"]
      (fun l => l) {"a"} (fun _ => "t") (fun _ => true)).1 ["a"] "#b" []
      (by decide) (by decide) (by decide) rfl,
    (c7_amended_marker_check ⟨false, false, false, '#'⟩ true ["a", "#b"]
      (fun l => l) {"a"} (fun _ => "t") (fun _ => true)).2 ["q"] "#b"
      (by decide)⟩

/-- Witness for the amended C9: a directory-sourced missing name aborts the
run with `missingFile` naming it, independently of the editor function. -/
theorem c9_witness :
    ("b" ∈ ["a", "b"] ∧ "b" ∉ ({"a"} : Finset FName) ∧
      cbrRun ⟨false, false, false, '#'⟩ true [] ["a", "b"] (fun l => l) {"a"}
        (fun _ => "t") (fun _ => true) = ⟨.error (.missingFile "b"), [], {"a"}⟩ ∧
      cbrRun ⟨false, false, false, '#'⟩ true [] ["a", "b"] (fun l => l) {"a"}
        (fun _ => "t") (fun _ => true) =
        cbrRun ⟨false, false, false, '#'⟩ true [] ["a", "b"] (fun _ => []) {"a"}
          (fun _ => "t") (fun _ => true)) :=
  c9_amended_existence_check ⟨false, false, false, '#'⟩ true [] ["a", "b"]
    (fun l => l) (fun _ => []) {"a"} (fun _ => "t") (fun _ => true) ["a", "b"]
    "b" (by decide) (by decide) (by decide)

/-- A first-pass kept name comes from an unchanged slot (and is that slot's
original name) or from a direct-rename slot (and is that slot's edited name,
non-delete-marked and outside the original batch). -/
theorem keptANames_cases (dc : Char) (inits : List FName) :
    ∀ (ps : List (FName × FName)) (x : FName), x ∈ keptANames dc inits ps →
    (∃ p ∈ ps, p.1 = p.2 ∧ x = p.1) ∨
    (∃ p ∈ ps, p.1 ≠ p.2 ∧ firstCharIs dc p.2 = false ∧ p.2 ∉ inits ∧ x = p.2) := by
  intro ps
  induction ps with
  | nil => intro x h; simp [keptANames] at h
  | cons p rest ih =>
    intro x h
    obtain ⟨a, b⟩ := p
    simp only [keptANames, List.filterMap_cons] at h
    have push :
        x ∈ List.filterMap (keptAName dc inits) rest →
        (∃ p ∈ (a, b) :: rest, p.1 = p.2 ∧ x = p.1) ∨
        (∃ p ∈ (a, b) :: rest, p.1 ≠ p.2 ∧ firstCharIs dc p.2 = false ∧
          p.2 ∉ inits ∧ x = p.2) := by
      intro h'
      rcases ih x h' with ⟨q, hq, h1, h2⟩ | ⟨q, hq, h1, h2, h3, h4⟩
      · exact Or.inl ⟨q, List.mem_cons_of_mem _ hq, h1, h2⟩
      · exact Or.inr ⟨q, List.mem_cons_of_mem _ hq, h1, h2, h3, h4⟩
    by_cases hab : a = b
    · subst hab
      rw [keptAName, if_pos rfl] at h
      rcases List.mem_cons.mp h with rfl | h'
      · exact Or.inl ⟨(x, x), List.mem_cons_self _ _, rfl, rfl⟩
      · exact push h'
    · rw [keptAName, if_neg hab] at h
      by_cases hm : firstCharIs dc b
      · rw [if_pos hm] at h
        exact push h
      · rw [if_neg hm] at h
        by_cases hi : b ∈ inits
        · rw [if_pos hi] at h
          exact push h
        · rw [if_neg hi] at h
          rcases List.mem_cons.mp h with rfl | h'
          · exact Or.inr ⟨(a, x), List.mem_cons_self _ _, hab, by simpa using hm,
              hi, rfl⟩
          · exact push h'

/-- First-pass kept names distribute over appending a processed pair. -/
theorem keptANames_append (dc : Char) (inits : List FName)
    (D E : List (FName × FName)) :
    keptANames dc inits (D ++ E) = keptANames dc inits D ++ keptANames dc inits E :=
  List.filterMap_append D E _

/-- Cyclic pairs distribute over appending a processed pair. -/
theorem cycPairs_append (dc : Char) (inits : List FName)
    (D E : List (FName × FName)) :
    cycPairs dc inits (D ++ E) = cycPairs dc inits D ++ cycPairs dc inits E :=
  List.filter_append D E

/-- Soundness of the first execution pass under the amended hypotheses: with
distinct original names, pairwise-distinct non-delete-marked targets, a
validated collision-free target set and a fresh temp-name generator, the pass
completes without error, maintains the filesystem characterization and the
pending-list well-formedness, and its operation trace replays safely. -/
theorem phaseA_sound
    (cfg : Config) (dc : Char) (inits tgtAll : List FName) (fs0 : Finset FName)
    (gen : Finset FName → FName)
    (hdc : cfg.delChar = dc) (htrash : cfg.trash = false)
    (hF1 : (inits.zip tgtAll).Pairwise (fun p q => p.1 ≠ q.1))
    (hF2 : (inits.zip tgtAll).Pairwise (fun p q =>
      firstCharIs dc p.2 = false → firstCharIs dc q.2 = false → p.2 ≠ q.2))
    (hcol : ∀ t ∈ tgtAll, firstCharIs dc t = false → t ∉ inits → t ∉ fs0)
    (hgen : ∀ s, gen s ∉ s ∧ gen s ∉ inits ∧ gen s ∉ tgtAll) :
    ∀ (rest done : List (FName × FName)) (st : ExecState),
    inits.zip tgtAll = done ++ rest →
    st.trashQ = [] →
    pendOk dc inits tgtAll fs0 done st.pending →
    (∀ x, x ∈ st.fs ↔ fsSpecA fs0 dc inits done st.pending rest x) →
    replay fs0 st.ops = some st.fs →
    ∃ st' : ExecState,
      phaseA cfg inits gen rest st = (st', none) ∧
      st'.trashQ = [] ∧
      pendOk dc inits tgtAll fs0 (done ++ rest) st'.pending ∧
      (∀ x, x ∈ st'.fs ↔ fsSpecA fs0 dc inits (done ++ rest) st'.pending [] x) ∧
      replay fs0 st'.ops = some st'.fs := by
  intro rest
  induction rest with
  | nil =>
    intro done st hsplit htq hpend hfs hrep
    exact ⟨st, by simp [phaseA], htq, by simpa using hpend, by simpa using hfs, hrep⟩
  | cons p rest' ih =>
    intro done st hsplit htq hpend hfs hrep
    obtain ⟨s, t⟩ := p
    have hassoc : done ++ (s, t) :: rest' = (done ++ [(s, t)]) ++ rest' := by simp
    have hsplit' : inits.zip tgtAll = (done ++ [(s, t)]) ++ rest' := by
      rw [hsplit, hassoc]
    have hmem_all : (s, t) ∈ inits.zip tgtAll := by
      rw [hsplit]; exact List.mem_append_right _ (List.mem_cons_self _ _)
    have hs_init : s ∈ inits := (List.of_mem_zip hmem_all).1
    have ht_tgt : t ∈ tgtAll := (List.of_mem_zip hmem_all).2
    have hF1' := hF1
    rw [hsplit] at hF1'
    obtain ⟨hF1d, hF1r, hF1x⟩ := List.pairwise_append.mp hF1'
    obtain ⟨hF1head, hF1rest⟩ := List.pairwise_cons.mp hF1r
    have hF2' := hF2
    rw [hsplit] at hF2'
    obtain ⟨hF2d, hF2r, hF2x⟩ := List.pairwise_append.mp hF2'
    obtain ⟨hF2head, hF2rest⟩ := List.pairwise_cons.mp hF2r
    have hdone_sub : ∀ q ∈ done, q ∈ inits.zip tgtAll := by
      intro q hq; rw [hsplit]; exact List.mem_append_left _ hq
    have hrest_sub : ∀ q ∈ rest', q ∈ inits.zip tgtAll := by
      intro q hq; rw [hsplit]
      exact List.mem_append_right _ (List.mem_cons_of_mem _ hq)
    have hkept_ne_s : ∀ x ∈ keptANames dc inits done, x ≠ s := by
      intro x hx
      rcases keptANames_cases dc inits done x hx with
        ⟨q, hq, h1, h2⟩ | ⟨q, hq, h1, h2, h3, h4⟩
      · subst h2; exact hF1x q hq (s, t) (List.mem_cons_self _ _)
      · subst h4; intro hc; rw [hc] at h3; exact h3 hs_init
    have htemps_ne_s : ∀ x ∈ pendTemps st.pending, x ≠ s := by
      intro x hx
      obtain ⟨r, hr, rfl⟩ := List.mem_map.mp hx
      intro hc
      exact (hpend.2.2 r hr).1 (hc ▸ hs_init)
    have hrest_fst_ne_s : ∀ x ∈ rest'.map Prod.fst, x ≠ s := by
      intro x hx
      obtain ⟨q, hq, rfl⟩ := List.mem_map.mp hx
      exact fun hc => hF1head q hq hc.symm
    have hs_fs : s ∈ st.fs := by
      refine (hfs s).mpr (Or.inr (Or.inr (Or.inr ?_)))
      simp
    have htemps_fs : ∀ x ∈ pendTemps st.pending, x ∈ st.fs := by
      intro x hx
      exact (hfs x).mpr (Or.inr (Or.inr (Or.inl hx)))
    by_cases hst : s = t
    · -- unchanged entry: skipped
      subst hst
      rw [phaseA_skip_unchanged]
      have hk : keptANames dc inits (done ++ [(s, s)]) =
          keptANames dc inits done ++ [s] := by
        rw [keptANames_append]
        simp [keptANames, keptAName]
      have hc : cycPairs dc inits (done ++ [(s, s)]) = cycPairs dc inits done := by
        rw [cycPairs_append]
        simp [cycPairs]
      have hpend' : pendOk dc inits tgtAll fs0 (done ++ [(s, s)]) st.pending := by
        refine ⟨?_, hpend.2.1, hpend.2.2⟩
        rw [hc]; exact hpend.1
      have hfs' : ∀ x, x ∈ st.fs ↔
          fsSpecA fs0 dc inits (done ++ [(s, s)]) st.pending rest' x := by
        intro x
        rw [hfs x]
        simp only [fsSpecA, hk, List.mem_append, List.map_cons, List.mem_cons,
          List.mem_singleton]
        tauto
      obtain ⟨st', h1, h2, h3, h4, h5⟩ := ih (done ++ [(s, s)]) st hsplit' htq
        hpend' hfs' hrep
      rw [← hassoc] at h3 h4
      exact ⟨st', h1, h2, h3, h4, h5⟩
    · by_cases hmk : firstCharIs dc t
      · -- delete-marked entry: removed (trash mode is off)
        have hcl : classify cfg.trash cfg.delChar inits s t = .toDelete := by
          simp [classify, hst, hdc, htrash, hmk]
        set st2 : ExecState :=
          { st with fs := st.fs.erase s, ops := st.ops ++ [.removeOp s] } with hst2
        have hstep : phaseA cfg inits gen ((s, t) :: rest') st =
            phaseA cfg inits gen rest' st2 := by
          simp only [phaseA, hcl]
          rw [if_pos hs_fs]
        have hk : keptANames dc inits (done ++ [(s, t)]) =
            keptANames dc inits done := by
          rw [keptANames_append]
          simp [keptANames, keptAName, hst, hmk]
        have hc : cycPairs dc inits (done ++ [(s, t)]) = cycPairs dc inits done := by
          rw [cycPairs_append]
          simp [cycPairs, hmk]
        have hpend' : pendOk dc inits tgtAll fs0 (done ++ [(s, t)]) st2.pending := by
          refine ⟨?_, hpend.2.1, hpend.2.2⟩
          rw [hc]; exact hpend.1
        have hfs' : ∀ x, x ∈ st2.fs ↔
            fsSpecA fs0 dc inits (done ++ [(s, t)]) st2.pending rest' x := by
          intro x
          have : st2.fs = st.fs.erase s := rfl
          rw [this, Finset.mem_erase, hfs x]
          simp only [fsSpecA, hk, List.map_cons, List.mem_cons]
          constructor
          · rintro ⟨hxs, h⟩
            rcases h with h | h | h | (h | h)
            · exact Or.inl h
            · exact Or.inr (Or.inl h)
            · exact Or.inr (Or.inr (Or.inl h))
            · exact absurd h hxs
            · exact Or.inr (Or.inr (Or.inr h))
          · intro h
            rcases h with h | h | h | h
            · exact ⟨fun hc => h.2 (hc ▸ hs_init), Or.inl h⟩
            · exact ⟨hkept_ne_s x h, Or.inr (Or.inl h)⟩
            · exact ⟨htemps_ne_s x h, Or.inr (Or.inr (Or.inl h))⟩
            · exact ⟨hrest_fst_ne_s x h, Or.inr (Or.inr (Or.inr (Or.inr h)))⟩
        have hrep' : replay fs0 st2.ops = some st2.fs := by
          have : st2.ops = st.ops ++ [.removeOp s] := rfl
          rw [this, replay_append, hrep]
          simp [replay, hs_fs]
        obtain ⟨st', h1, h2, h3, h4, h5⟩ := ih (done ++ [(s, t)]) st2 hsplit' htq
          hpend' hfs' hrep'
        rw [← hassoc] at h3 h4
        exact ⟨st', by rw [hstep]; exact h1, h2, h3, h4, h5⟩
      · have hmk' : firstCharIs dc t = false := by simpa using hmk
        by_cases hin : t ∈ inits
        · -- cyclic rename: vacate to a fresh temporary name
          have hcl : classify cfg.trash cfg.delChar inits s t = .cyclicRen := by
            simp [classify, hst, hdc, hmk, hin]
          set temp := gen st.fs with htempdef
          have htemp_fs : temp ∉ st.fs := (hgen st.fs).1
          have htemp_inits : temp ∉ inits := (hgen st.fs).2.1
          have htemp_tgt : temp ∉ tgtAll := (hgen st.fs).2.2
          have htemp_fs0 : temp ∉ fs0 := by
            intro hmem
            exact htemp_fs ((hfs temp).mpr (Or.inl ⟨hmem, htemp_inits⟩))
          set rp : RenamePath := ⟨s, temp, t⟩ with hrp
          set st2 : ExecState :=
            { st with fs := insert temp (st.fs.erase s),
                      pending := st.pending ++ [rp],
                      ops := st.ops ++ [.renameOp s temp] } with hst2
          have hstep : phaseA cfg inits gen ((s, t) :: rest') st =
              phaseA cfg inits gen rest' st2 := by
            simp only [phaseA, hcl]
            rw [if_pos hs_fs]
          have hk : keptANames dc inits (done ++ [(s, t)]) =
              keptANames dc inits done := by
            rw [keptANames_append]
            simp [keptANames, keptAName, hst, hmk', hin]
          have hc : cycPairs dc inits (done ++ [(s, t)]) =
              cycPairs dc inits done ++ [(s, t)] := by
            rw [cycPairs_append]
            simp [cycPairs, hst, hmk', hin]
          have htemps2 : pendTemps st2.pending = pendTemps st.pending ++ [temp] := by
            have : st2.pending = st.pending ++ [rp] := rfl
            rw [this, pendTemps, List.map_append]
            rfl
          have hpend' : pendOk dc inits tgtAll fs0 (done ++ [(s, t)]) st2.pending := by
            refine ⟨?_, ?_, ?_⟩
            · have : st2.pending = st.pending ++ [rp] := rfl
              rw [this, pendPairs, List.map_append, hc]
              have h1 : pendPairs st.pending = cycPairs dc inits done := hpend.1
              rw [pendPairs] at h1
              rw [h1]
              rfl
            · rw [htemps2, List.nodup_append]
              refine ⟨hpend.2.1, List.nodup_singleton _, ?_⟩
              intro x hx hx'
              rw [List.mem_singleton] at hx'
              subst hx'
              exact htemp_fs (htemps_fs _ hx)
            · intro r hr
              have : st2.pending = st.pending ++ [rp] := rfl
              rw [this, List.mem_append] at hr
              rcases hr with hr | hr
              · exact hpend.2.2 r hr
              · rw [List.mem_singleton] at hr
                subst hr
                exact ⟨htemp_inits, htemp_tgt, htemp_fs0⟩
          have hfs' : ∀ x, x ∈ st2.fs ↔
              fsSpecA fs0 dc inits (done ++ [(s, t)]) st2.pending rest' x := by
            intro x
            have : st2.fs = insert temp (st.fs.erase s) := rfl
            rw [this, Finset.mem_insert, Finset.mem_erase, hfs x]
            simp only [fsSpecA, hk, htemps2, List.mem_append, List.mem_singleton,
              List.map_cons, List.mem_cons, List.not_mem_nil, or_false]
            constructor
            · rintro (rfl | ⟨hxs, h⟩)
              · exact Or.inr (Or.inr (Or.inl (Or.inr rfl)))
              · rcases h with h | h | h | (h | h)
                · exact Or.inl h
                · exact Or.inr (Or.inl h)
                · exact Or.inr (Or.inr (Or.inl (Or.inl h)))
                · exact absurd h hxs
                · exact Or.inr (Or.inr (Or.inr h))
            · intro h
              rcases h with h | h | (h | h) | h
              · exact Or.inr ⟨fun hc => h.2 (hc ▸ hs_init), Or.inl h⟩
              · exact Or.inr ⟨hkept_ne_s x h, Or.inr (Or.inl h)⟩
              · exact Or.inr ⟨htemps_ne_s x h, Or.inr (Or.inr (Or.inl h))⟩
              · exact Or.inl h
              · exact Or.inr ⟨hrest_fst_ne_s x h,
                  Or.inr (Or.inr (Or.inr (Or.inr h)))⟩
          have hrep' : replay fs0 st2.ops = some st2.fs := by
            have : st2.ops = st.ops ++ [.renameOp s temp] := rfl
            rw [this, replay_append, hrep]
            simp [replay, hs_fs, htemp_fs]
          obtain ⟨st', h1, h2, h3, h4, h5⟩ := ih (done ++ [(s, t)]) st2 hsplit' htq
            hpend' hfs' hrep'
          rw [← hassoc] at h3 h4
          exact ⟨st', by rw [hstep]; exact h1, h2, h3, h4, h5⟩
        · -- direct rename: the target is certified free
          have hcl : classify cfg.trash cfg.delChar inits s t = .directRen := by
            simp [classify, hst, hdc, hmk, hin]
          have ht_fs : t ∉ st.fs := by
            intro hmem
            rcases (hfs t).mp hmem with h | h | h | h
            · exact hcol t ht_tgt hmk' hin h.1
            · rcases keptANames_cases dc inits done t h with
                ⟨q, hq, h1, h2⟩ | ⟨q, hq, h1, h2, h3, h4⟩
              · have hq1 : q.1 ∈ inits := (List.of_mem_zip (hdone_sub q hq)).1
                rw [← h2] at hq1
                exact hin hq1
              · exact hF2x q hq (s, t) (List.mem_cons_self _ _) h2 hmk' h4.symm
            · obtain ⟨r, hr, rfl⟩ := List.mem_map.mp h
              exact (hpend.2.2 r hr).2.1 ht_tgt
            · rw [List.map_cons, List.mem_cons] at h
              rcases h with h | h
              · exact hst h.symm
              · obtain ⟨q, hq, rfl⟩ := List.mem_map.mp h
                exact hin (List.of_mem_zip (hrest_sub q hq)).1
          set st2 : ExecState :=
            { st with fs := insert t (st.fs.erase s),
                      ops := st.ops ++ [.renameOp s t] } with hst2
          have hstep : phaseA cfg inits gen ((s, t) :: rest') st =
              phaseA cfg inits gen rest' st2 := by
            simp only [phaseA, hcl]
            rw [if_pos hs_fs]
          have hk : keptANames dc inits (done ++ [(s, t)]) =
              keptANames dc inits done ++ [t] := by
            rw [keptANames_append]
            simp [keptANames, keptAName, hst, hmk', hin]
          have hc : cycPairs dc inits (done ++ [(s, t)]) = cycPairs dc inits done := by
            rw [cycPairs_append]
            simp [cycPairs, hin]
          have hpend' : pendOk dc inits tgtAll fs0 (done ++ [(s, t)]) st2.pending := by
            refine ⟨?_, hpend.2.1, hpend.2.2⟩
            rw [hc]; exact hpend.1
          have hfs' : ∀ x, x ∈ st2.fs ↔
              fsSpecA fs0 dc inits (done ++ [(s, t)]) st2.pending rest' x := by
            intro x
            have : st2.fs = insert t (st.fs.erase s) := rfl
            rw [this, Finset.mem_insert, Finset.mem_erase, hfs x]
            simp only [fsSpecA, hk, List.mem_append, List.mem_singleton,
              List.map_cons, List.mem_cons, List.not_mem_nil, or_false]
            constructor
            · rintro (rfl | ⟨hxs, h⟩)
              · exact Or.inr (Or.inl (Or.inr rfl))
              · rcases h with h | h | h | (h | h)
                · exact Or.inl h
                · exact Or.inr (Or.inl (Or.inl h))
                · exact Or.inr (Or.inr (Or.inl h))
                · exact absurd h hxs
                · exact Or.inr (Or.inr (Or.inr h))
            · intro h
              rcases h with h | (h | h) | h | h
              · exact Or.inr ⟨fun hc => h.2 (hc ▸ hs_init), Or.inl h⟩
              · exact Or.inr ⟨hkept_ne_s x h, Or.inr (Or.inl h)⟩
              · exact Or.inl h
              · exact Or.inr ⟨htemps_ne_s x h, Or.inr (Or.inr (Or.inl h))⟩
              · exact Or.inr ⟨hrest_fst_ne_s x h,
                  Or.inr (Or.inr (Or.inr (Or.inr h)))⟩
          have hrep' : replay fs0 st2.ops = some st2.fs := by
            have : st2.ops = st.ops ++ [.renameOp s t] := rfl
            rw [this, replay_append, hrep]
            simp [replay, hs_fs, ht_fs]
          obtain ⟨st', h1, h2, h3, h4, h5⟩ := ih (done ++ [(s, t)]) st2 hsplit' htq
            hpend' hfs' hrep'
          rw [← hassoc] at h3 h4
          exact ⟨st', by rw [hstep]; exact h1, h2, h3, h4, h5⟩

/-- Soundness of the final rename pass: every pending temp-to-final rename
finds its temporary name live and its final target free, so the pass completes
without error, lands exactly the cyclic targets, and its trace replays safely. -/
theorem phaseB_sound
    (dc : Char) (inits tgtAll : List FName) (fs0 : Finset FName)
    (hF2 : (inits.zip tgtAll).Pairwise (fun p q =>
      firstCharIs dc p.2 = false → firstCharIs dc q.2 = false → p.2 ≠ q.2))
    (pendAll : List RenamePath)
    (hpendAll : pendOk dc inits tgtAll fs0 (inits.zip tgtAll) pendAll) :
    ∀ (left doneP : List RenamePath) (st : ExecState),
    pendAll = doneP ++ left →
    (∀ x, x ∈ st.fs ↔ fsSpecB fs0 dc inits (inits.zip tgtAll) doneP left x) →
    replay fs0 st.ops = some st.fs →
    ∃ st' : ExecState,
      phaseB left st = (st', none) ∧
      st'.pending = st.pending ∧
      (∀ x, x ∈ st'.fs ↔
        fsSpecB fs0 dc inits (inits.zip tgtAll) (doneP ++ left) [] x) ∧
      replay fs0 st'.ops = some st'.fs := by
  have hsymm : Symmetric (fun p q : FName × FName =>
      firstCharIs dc p.2 = false → firstCharIs dc q.2 = false → p.2 ≠ q.2) := by
    intro p q h hq hp
    exact Ne.symm (h hp hq)
  have hpendpw : pendAll.Pairwise (fun r r' => r.new_name ≠ r'.new_name) := by
    have h1 : (pendPairs pendAll).Pairwise (fun p q => p.2 ≠ q.2) := by
      rw [hpendAll.1]
      refine (hF2.sublist (List.filter_sublist _)).imp_of_mem ?_
      intro p q hp hq h
      have hp' := (mem_cycPairs dc inits _ p).mp hp
      have hq' := (mem_cycPairs dc inits _ q).mp hq
      exact h hp'.2.2.1 hq'.2.2.1
    rw [pendPairs] at h1
    have h2 := (List.pairwise_map).mp h1
    exact h2
  have hcyc_tgt : ∀ r ∈ pendAll, r.new_name ∈ tgtAll := by
    intro r hr
    have hmem : (r.initial_name, r.new_name) ∈ pendPairs pendAll :=
      List.mem_map.mpr ⟨r, hr, rfl⟩
    rw [hpendAll.1] at hmem
    have := (mem_cycPairs dc inits _ _).mp hmem
    exact (List.of_mem_zip this.1).2
  have hcyc_facts : ∀ r ∈ pendAll,
      (r.initial_name, r.new_name) ∈ inits.zip tgtAll ∧
      r.initial_name ≠ r.new_name ∧
      firstCharIs dc r.new_name = false ∧ r.new_name ∈ inits := by
    intro r hr
    have hmem : (r.initial_name, r.new_name) ∈ pendPairs pendAll :=
      List.mem_map.mpr ⟨r, hr, rfl⟩
    rw [hpendAll.1] at hmem
    exact (mem_cycPairs dc inits _ _).mp hmem
  have hkept_bound : ∀ x ∈ keptANames dc inits (inits.zip tgtAll),
      x ∈ inits ∨ x ∈ tgtAll := by
    intro x hx
    rcases keptANames_cases dc inits _ x hx with
      ⟨q, hq, h1, h2⟩ | ⟨q, hq, h1, h2, h3, h4⟩
    · subst h2; exact Or.inl (List.of_mem_zip hq).1
    · subst h4; exact Or.inr (List.of_mem_zip hq).2
  intro left
  induction left with
  | nil =>
    intro doneP st hsplit hfs hrep
    exact ⟨st, by simp [phaseB], rfl, by simpa using hfs, hrep⟩
  | cons rp left' ih =>
    intro doneP st hsplit hfs hrep
    have hassoc : doneP ++ rp :: left' = (doneP ++ [rp]) ++ left' := by simp
    have hsplit' : pendAll = (doneP ++ [rp]) ++ left' := by rw [hsplit, hassoc]
    have hrp_mem : rp ∈ pendAll := by
      rw [hsplit]; exact List.mem_append_right _ (List.mem_cons_self _ _)
    obtain ⟨hrp_zip, hrp_ne, hrp_mk, hrp_init⟩ := hcyc_facts rp hrp_mem
    have hrp_temp := hpendAll.2.2 rp hrp_mem
    have hpendpw' := hpendpw
    rw [hsplit] at hpendpw'
    obtain ⟨hpwD, hpwR, hpwX⟩ := List.pairwise_append.mp hpendpw'
    have hnodup := hpendAll.2.1
    rw [hsplit] at hnodup
    have htempsplit : pendTemps (doneP ++ rp :: left') =
        pendTemps doneP ++ rp.temp_name :: pendTemps left' := by
      simp only [pendTemps, List.map_append, List.map_cons]
    rw [htempsplit, List.nodup_append] at hnodup
    have htmp_not_left : rp.temp_name ∉ pendTemps left' := by
      have := hnodup.2.1
      rw [List.nodup_cons] at this
      exact this.1
    have htmp_fs : rp.temp_name ∈ st.fs := by
      refine (hfs rp.temp_name).mpr (Or.inr (Or.inr (Or.inr ?_)))
      rw [pendTemps, List.map_cons]
      exact List.mem_cons_self _ _
    have hnw_fs : rp.new_name ∉ st.fs := by
      intro hmem
      rcases (hfs rp.new_name).mp hmem with h | h | h | h
      · exact h.2 hrp_init
      · rcases keptANames_cases dc inits _ _ h with
          ⟨q, hq, h1, h2⟩ | ⟨q, hq, h1, h2, h3, h4⟩
        · have hq2 : q.2 = rp.new_name := by rw [← h1]; exact h2.symm
          have hne_vals : q ≠ (rp.initial_name, rp.new_name) := by
            intro hc
            rw [hc] at h1
            exact hrp_ne h1
          have hrel := (hF2.forall hsymm) hq hrp_zip hne_vals
          exact hrel (by rw [hq2]; exact hrp_mk) hrp_mk hq2
        · rw [← h4] at h3
          exact h3 hrp_init
      · obtain ⟨r', hr', heq⟩ := List.mem_map.mp h
        exact hpwX r' hr' rp (List.mem_cons_self _ _) heq
      · obtain ⟨r', hr', heq⟩ := List.mem_map.mp h
        have hr'_all : r' ∈ pendAll := by
          rw [hsplit]
          exact List.mem_append_right _ hr'
        exact (hpendAll.2.2 r' hr'_all).1 (heq ▸ hrp_init)
    set st2 : ExecState :=
      { st with fs := insert rp.new_name (st.fs.erase rp.temp_name),
                ops := st.ops ++ [.renameOp rp.temp_name rp.new_name] } with hst2
    have hstep : phaseB (rp :: left') st = phaseB left' st2 := by
      simp only [phaseB]
      rw [if_pos htmp_fs]
    have htc : pendTemps (rp :: left') = rp.temp_name :: pendTemps left' := rfl
    have hfs' : ∀ x, x ∈ st2.fs ↔
        fsSpecB fs0 dc inits (inits.zip tgtAll) (doneP ++ [rp]) left' x := by
      intro x
      have hfs2 : st2.fs = insert rp.new_name (st.fs.erase rp.temp_name) := rfl
      rw [hfs2, Finset.mem_insert, Finset.mem_erase, hfs x]
      simp only [fsSpecB, htc, List.map_append, List.mem_append, List.map_cons,
        List.map_nil, List.mem_cons, List.mem_singleton, List.not_mem_nil,
        or_false]
      constructor
      · rintro (rfl | ⟨hxt, h⟩)
        · exact Or.inr (Or.inr (Or.inl (Or.inr rfl)))
        · rcases h with h | h | h | (h | h)
          · exact Or.inl h
          · exact Or.inr (Or.inl h)
          · exact Or.inr (Or.inr (Or.inl (Or.inl h)))
          · exact absurd h hxt
          · exact Or.inr (Or.inr (Or.inr h))
      · intro h
        rcases h with h | h | (h | h) | h
        · refine Or.inr ⟨?_, Or.inl h⟩
          intro hc
          exact hrp_temp.2.2 (hc ▸ h.1)
        · refine Or.inr ⟨?_, Or.inr (Or.inl h)⟩
          intro hc
          rcases hkept_bound x h with hx | hx
          · exact hrp_temp.1 (hc ▸ hx)
          · exact hrp_temp.2.1 (hc ▸ hx)
        · refine Or.inr ⟨?_, Or.inr (Or.inr (Or.inl h))⟩
          intro hc
          obtain ⟨r', hr', heq⟩ := List.mem_map.mp h
          have hr'_all : r' ∈ pendAll := by
            rw [hsplit]
            exact List.mem_append_left _ hr'
          have htg : r'.new_name ∈ tgtAll := hcyc_tgt r' hr'_all
          rw [heq, hc] at htg
          exact hrp_temp.2.1 htg
        · exact Or.inl h
        · refine Or.inr ⟨?_, Or.inr (Or.inr (Or.inr (Or.inr h)))⟩
          intro hc
          exact htmp_not_left (hc ▸ h)
    have hrep' : replay fs0 st2.ops = some st2.fs := by
      have hops2 : st2.ops = st.ops ++ [.renameOp rp.temp_name rp.new_name] := rfl
      rw [hops2, replay_append, hrep]
      simp [replay, htmp_fs, hnw_fs]
    obtain ⟨st', h1, h2, h3, h4⟩ := ih (doneP ++ [rp]) st2 hsplit' hfs' hrep'
    rw [← hassoc] at h3
    refine ⟨st', by rw [hstep]; exact h1, ?_, h3, h4⟩
    rw [h2]

/-- Soundness of the whole execution engine in deletion mode under the amended
hypotheses: it completes without error, its trace replays safely against the
initial filesystem (so no rename ever lands on a live path), and the final
filesystem is exactly the untouched outside-batch names plus the kept names of
the pairing. -/
theorem runExec_sound
    (cfg : Config) (dc : Char) (inits tgtAll : List FName) (fs0 : Finset FName)
    (gen : Finset FName → FName) (trashOk : List FName → Bool)
    (hdc : cfg.delChar = dc) (htrash : cfg.trash = false)
    (hlen : inits.length ≤ tgtAll.length)
    (hF1 : inits.Nodup)
    (hF2 : (tgtAll.filter (fun x => !firstCharIs dc x)).Nodup)
    (hsrcfs : ∀ a ∈ inits, a ∈ fs0)
    (hcol : ∀ t ∈ tgtAll, firstCharIs dc t = false → t ∉ inits → t ∉ fs0)
    (hgen : ∀ s, gen s ∉ s ∧ gen s ∉ inits ∧ gen s ∉ tgtAll) :
    ∃ st' : ExecState,
      runExec cfg inits gen trashOk (inits.zip tgtAll) fs0 = (st', none) ∧
      replay fs0 st'.ops = some st'.fs ∧
      (∀ x, x ∈ st'.fs ↔
        ((x ∈ fs0 ∧ x ∉ inits) ∨ x ∈ keptNames dc (inits.zip tgtAll))) := by
  have hpw1 := pairwise_fst_of_nodup inits tgtAll hF1
  have hpw2 := pairwise_snd_of_filter_nodup dc inits tgtAll hF2
  have hmapfst : (inits.zip tgtAll).map Prod.fst = inits :=
    List.map_fst_zip _ _ hlen
  have hfs0 : ∀ x, x ∈ (⟨fs0, [], [], []⟩ : ExecState).fs ↔
      fsSpecA fs0 dc inits [] [] (inits.zip tgtAll) x := by
    intro x
    simp only [fsSpecA, keptANames, List.filterMap_nil, pendTemps, List.map_nil,
      List.not_mem_nil, false_or, or_false, hmapfst]
    constructor
    · intro hx
      by_cases hxi : x ∈ inits
      · exact Or.inr hxi
      · exact Or.inl ⟨hx, hxi⟩
    · rintro (⟨h, _⟩ | h)
      · exact h
      · exact hsrcfs x h
  obtain ⟨stA, hA, hAtq, hApend, hAfs, hArep⟩ :=
    phaseA_sound cfg dc inits tgtAll fs0 gen hdc htrash hpw1 hpw2 hcol hgen
      (inits.zip tgtAll) [] ⟨fs0, [], [], []⟩ (by simp) rfl
      ⟨by simp [pendPairs, cycPairs], by simp [pendTemps], by simp⟩
      hfs0 (by simp [replay])
  rw [List.nil_append] at hApend hAfs
  have hC : phaseC trashOk stA = (stA, none) := by
    simp [phaseC, hAtq]
  have hBfs0 : ∀ x, x ∈ stA.fs ↔
      fsSpecB fs0 dc inits (inits.zip tgtAll) [] stA.pending x := by
    intro x
    rw [hAfs x]
    simp only [fsSpecA, fsSpecB, List.map_nil, List.not_mem_nil, or_false,
      false_or]
  obtain ⟨stB, hB, hBpend, hBfs, hBrep⟩ :=
    phaseB_sound dc inits tgtAll fs0 hpw2 stA.pending hApend stA.pending []
      stA (by simp) hBfs0 hArep
  refine ⟨stB, ?_, hBrep, ?_⟩
  · simp only [runExec, hA, hC, hB]
  · intro x
    rw [hBfs x]
    simp only [fsSpecB, List.nil_append, pendTemps, List.map_nil,
      List.not_mem_nil, or_false]
    have hmapnew : stA.pending.map RenamePath.new_name =
        (cycPairs dc inits (inits.zip tgtAll)).map Prod.snd := by
      have h1 := hApend.1
      have h2 : (pendPairs stA.pending).map Prod.snd =
          stA.pending.map RenamePath.new_name := by
        rw [pendPairs, List.map_map]
        rfl
      rw [← h2, h1]
    rw [hmapnew]
    have hkn : x ∈ keptNames dc (inits.zip tgtAll) ↔
        x ∈ keptANames dc inits (inits.zip tgtAll) ∨
        x ∈ (cycPairs dc inits (inits.zip tgtAll)).map Prod.snd := by
      rw [(keptNames_perm dc inits (inits.zip tgtAll)).mem_iff, List.mem_append]
    rw [hkn]

/-- Claim C2 (amended): in deletion mode without force, with pairwise-distinct
original names, pairwise-distinct non-delete-marked edited entries, and a temp
generator producing names fresh with respect to the live filesystem and the
batch, a run that raises no error executes a trace in which every rename finds
its source live and its target free (no two live files ever occupy one path,
and in particular every temp-to-final target is free when the final pass
reaches it), and it ends with exactly the intended names: the untouched
outside-batch files plus, per pair, the original name if unchanged, nothing if
delete-marked, and the edited name otherwise. -/
theorem c2_amended_execution_correct
    (cfg : Config) (gioAvail : Bool) (args dirList : List FName)
    (editFn : List FName → List FName) (fs0 : Finset FName)
    (gen : Finset FName → FName) (trashOk : List FName → Bool)
    (names src tgt : List FName) (r : RunResult)
    (hforce : cfg.force = false) (htrash : cfg.trash = false)
    (hing : ingest cfg.delChar args dirList = .ok names)
    (hsrc : src = sortNames names)
    (htgt : tgt = editFn src)
    (hnodup : src.Nodup)
    (hinj : (tgt.filter (fun x => !firstCharIs cfg.delChar x)).Nodup)
    (hgen : ∀ s, gen s ∉ s ∧ gen s ∉ src ∧ gen s ∉ tgt)
    (hrun : cbrRun cfg gioAvail args dirList editFn fs0 gen trashOk = r)
    (hok : r.outcome = .ok ()) :
    replay fs0 r.ops = some r.fs ∧
    ∀ x, x ∈ r.fs ↔
      ((x ∈ fs0 ∧ x ∉ src) ∨ x ∈ keptNames cfg.delChar (src.zip tgt)) := by
  have hgio : ¬(cfg.trash ∧ gioAvail = false) := by
    rw [htrash]; simp
  simp only [cbrRun] at hrun
  rw [if_neg hgio] at hrun
  split at hrun
  · next e hmatch =>
    rw [hing] at hmatch
    cases hmatch
  · next names2 hmatch =>
    rw [hing] at hmatch
    injection hmatch with hnames
    subst hnames
    rw [← hsrc, ← htgt] at hrun
    split at hrun
    · next hemp =>
      rw [List.isEmpty_iff] at hemp
      have hsrcnil : src = [] := by
        rw [hsrc, hemp]; rfl
      subst hrun
      refine ⟨by simp [replay], ?_⟩
      intro x
      rw [hsrcnil]
      simp [keptNames]
    · split at hrun
      · subst hrun; simp at hok
      · next hchk =>
        split at hrun
        · subst hrun; simp at hok
        · next hlen =>
          split at hrun
          · subst hrun; simp at hok
          · next hval =>
            split at hrun
            · subst hrun; simp at hok
            · next st heq =>
              subst hrun
              have hlen' : src.length ≤ tgt.length := by
                have := not_ne_iff.mp hlen
                omega
              have hsrcfs : ∀ a ∈ src, a ∈ fs0 := by
                intro a ha
                refine checkFilesExist_ok_mem fs0 names hchk a ?_
                rw [hsrc, sortNames] at ha
                exact (List.mem_insertionSort _).mp ha
              have hcol : ∀ t ∈ tgt, firstCharIs cfg.delChar t = false →
                  t ∉ src → t ∉ fs0 := by
                rw [hforce] at hval
                exact validationLoop_ok_no_collision cfg.delChar src fs0 tgt
                  (sortNames tgt) hval
              obtain ⟨st', heq', hrep', hiff'⟩ :=
                runExec_sound cfg cfg.delChar src tgt fs0 gen trashOk rfl htrash
                  hlen' hnodup hinj hsrcfs hcol hgen
              rw [heq] at heq'
              have hst : st = st' := by
                injection heq'.symm with h1 h2
                exact h1.symm
              subst hst
              exact ⟨hrep', hiff'⟩

/-- Witness for the amended C2: the two-element swap executed through fresh
temporary names replays safely and ends in the swapped state. -/
theorem c2_witness :
    replay {"a", "b"}
      ((cbrRun ⟨false, false, false, '#'⟩ true ["a", "b"] []
        (fun _ => ["b", "a"]) {"a", "b"} (freshName ["a", "b"])
        (fun _ => true)).ops) =
      some ((cbrRun ⟨false, false, false, '#'⟩ true ["a", "b"] []
        (fun _ => ["b", "a"]) {"a", "b"} (freshName ["a", "b"])
        (fun _ => true)).fs) ∧
    (("a" : FName) ∈ (cbrRun ⟨false, false, false, '#'⟩ true ["a", "b"] []
        (fun _ => ["b", "a"]) {"a", "b"} (freshName ["a", "b"])
        (fun _ => true)).fs ↔
      ((("a" : FName) ∈ ({"a", "b"} : Finset FName) ∧ ("a" : FName) ∉ ["a", "b"]) ∨
        ("a" : FName) ∈ keptNames '#' (["a", "b"].zip ["b", "a"]))) := by
  have hgen : ∀ s, freshName ["a", "b"] s ∉ s ∧
      freshName ["a", "b"] s ∉ ["a", "b"] ∧
      freshName ["a", "b"] s ∉ ["b", "a"] := by
    intro s
    refine ⟨(freshName_not_mem ["a", "b"] s).1, ?_, ?_⟩
    · intro h
      exact (freshName_not_mem ["a", "b"] s).2 _ h rfl
    · intro h
      have h' : freshName ["a", "b"] s ∈ ["a", "b"] := by
        rcases List.mem_cons.mp h with h1 | h1
        · rw [h1]; simp
        · rw [List.mem_singleton] at h1
          rw [h1]; simp
      exact (freshName_not_mem ["a", "b"] s).2 _ h' rfl
  have hmain := c2_amended_execution_correct ⟨false, false, false, '#'⟩ true
    ["a", "b"] [] (fun _ => ["b", "a"]) {"a", "b"} (freshName ["a", "b"])
    (fun _ => true) ["a", "b"] ["a", "b"] ["b", "a"] _ rfl rfl (by decide)
    (by decide) rfl (by decide) (by decide) hgen rfl (by decide)
  exact ⟨hmain.1, hmain.2 "a"⟩

end Cbr
